import Mathlib

/-!
Verification of the vellum shell-history daemon against its specification.

Shallow embedding conventions used throughout this file:

* Rust `String` values are modeled as byte lists (`Str := List Nat`); Rust's
  `Ord` on strings is byte-wise lexicographic, which is exactly the
  `LinearOrder` on `List Nat`.
* `chrono::DateNat<Utc>` timestamps are modeled as natural numbers of seconds
  since the Unix epoch (`Nat := Nat`); `Uuid` values are modeled as `Nat`
  (uuids compare byte-wise, i.e. as natural numbers).
* `Utc::now()` is made explicit: every operation that reads the clock takes a
  `now` argument.
* AES-GCM sealing/opening (`aws_lc_rs`) is modeled symbolically as a pair of
  inverse operations (`seal` / `openSealed`), mirroring the library contract
  that opening with the sealing key and nonce recovers the plaintext and
  fails otherwise.
* msgpack (`rmp_serde`) serialisation of the fixed record shapes used by the
  program is modeled by a concrete injective, self-delimiting byte encoding
  with an executable decoder; what matters for the claims is only that the
  decoder inverts the encoder, which is proved, not assumed.
* Fallible Rust functions returning `Result` become `Except Err` values;
  `std::io` reads are modeled over explicit byte lists.
-/

/-- Rust `String` modeled as a byte list; Rust's `Ord` is byte-wise
lexicographic, matching the `LinearOrder` on `List Nat`. -/
abbrev Str := List Nat


/-- `history/store.rs` `Entry`: one command occurrence (or edit/tombstone). -/
structure Entry where
  id : Nat
  ts : Nat
  host : Str
  cmd : Str
  path : Str
  session : Str
deriving Repr, DecidableEq, Inhabited

/-- The sort key of `impl Ord for Entry` in `history/store.rs`:
`ts`, then `host`, then `cmd`, then `path` (lexicographic product). -/
def Entry.key (e : Entry) : Lex (Nat × Lex (Str × Lex (Str × Str))) :=
  toLex (e.ts, toLex (e.host, toLex (e.cmd, e.path)))

/-- Boolean total preorder on entries, the comparison used by the Rust
`sort`/`sorted` calls on `Entry` values. -/
def entryLe (a b : Entry) : Bool := decide (a.key ≤ b.key)

/-- Rust's stable `sort` on a `Vec<Entry>` (and itertools `sorted`). -/
def sortEntries (l : List Entry) : List Entry := l.mergeSort entryLe

/-- `history/mod.rs` `collapse_entries`: a single entry is returned as is;
otherwise the group is stably sorted, and the first entry is returned with
its `cmd` replaced by the last entry's `cmd`. -/
def collapse_entries (l : List Entry) : Entry :=
  if l.length = 1 then l.headD default
  else
    let s := sortEntries l
    { s.headD default with cmd := (s.getLastD default).cmd }

/-- `history/mod.rs` `History::rebuild_merged`, as a function of the multiset
of entries held across all hosts' chunk lists (given as the flattened list
`l`, in the iteration order of the host map and chunk lists).  The Rust code
inserts every entry into a `BTreeMap<Uuid, Vec<Entry>>` (so per id the group
is the subsequence of `l` with that id, and groups are visited in ascending
id order), collapses each group, drops entries with empty `cmd`, and sorts
the result. -/
def rebuild_merged (l : List Entry) : List Entry :=
  let ids := (l.map Entry.id).dedup.mergeSort (fun a b => decide (a ≤ b))
  let collapsed := ids.map (fun i => collapse_entries (l.filter (fun e => e.id = i)))
  (collapsed.filter (fun e => !e.cmd.isEmpty)).mergeSort entryLe

/-! ### Error values

Models `error.rs` `Error` at the granularity the claims need: the payloads of
`Generic` messages are reduced to their distinguishing data. -/

inductive Err where
  | io : Err
  | decode : Err
  | crypto : Err
  | invalidVersion : Nat → Err
  | unknownId : Nat → Err
  | generic : Err
deriving Repr, DecidableEq, Inhabited

/-! ### Byte-level primitives

`u64::to_le_bytes` / `to_be_bytes` and their inverses, over byte lists. -/

/-- `k` little-endian base-256 digits of `n` (`u64::to_le_bytes` is
`leBytes 8`). -/
def leBytes : Nat → Nat → List Nat
  | 0, _ => []
  | k + 1, n => n % 256 :: leBytes k (n / 256)

/-- Big-endian bytes are the reverse of little-endian bytes
(`u64::to_be_bytes`). -/
def beBytes (k n : Nat) : List Nat := (leBytes k n).reverse

/-- `u64::from_le_bytes`. -/
def fromLe : List Nat → Nat
  | [] => 0
  | b :: r => b + 256 * fromLe r

/-- `u64::from_be_bytes`. -/
def fromBe (bs : List Nat) : Nat := fromLe bs.reverse

/-! ### A concrete self-delimiting byte serialisation

Models `rmp_serde` for the fixed record shapes the program serialises.  The
exact msgpack byte layout is immaterial to every claim; what matters is that
deserialising inverts serialising, which is proved for this encoding (and
holds for msgpack on these shapes).  Naturals use a base-128 varint; lists
are length-prefixed.  `encNatAux` carries a structural fuel argument (the
number itself suffices) so that the encoder reduces definitionally. -/

def encNatAux : Nat → Nat → List Nat
  | 0, n => [n % 128]
  | fuel + 1, n => if n < 128 then [n] else (128 + n % 128) :: encNatAux fuel (n / 128)

/-- Self-delimiting encoding of a natural number. -/
def encNat (n : Nat) : List Nat := encNatAux n n

/-- Decoder for `encNat`; returns the value and the remaining bytes. -/
def decNat : List Nat → Option (Nat × List Nat)
  | [] => none
  | b :: rest =>
    if b < 128 then some (b, rest)
    else
      match decNat rest with
      | some (m, r) => some ((b - 128) + 128 * m, r)
      | none => none

/-- Concatenated encodings of the elements of a list. -/
def encAll (enc : α → List Nat) : List α → List Nat
  | [] => []
  | a :: l => enc a ++ encAll enc l

/-- Length-prefixed encoding of a list. -/
def encListN (enc : α → List Nat) (l : List α) : List Nat :=
  encNat l.length ++ encAll enc l

/-- Decode exactly `n` elements. -/
def decListAux (dec : List Nat → Option (α × List Nat)) :
    Nat → List Nat → Option (List α × List Nat)
  | 0, bs => some ([], bs)
  | n + 1, bs =>
    match dec bs with
    | some (a, r) =>
      match decListAux dec n r with
      | some (l, r2) => some (a :: l, r2)
      | none => none
    | none => none

/-- Decoder for `encListN`. -/
def decListN (dec : List Nat → Option (α × List Nat)) (bs : List Nat) :
    Option (List α × List Nat) :=
  match decNat bs with
  | some (n, r) => decListAux dec n r
  | none => none

/-- Encoding of a string (byte list). -/
def encStr (s : Str) : List Nat := encListN encNat s

/-- Decoder for `encStr`. -/
def decStr (bs : List Nat) : Option (Str × List Nat) := decListN decNat bs

/-- Serialisation of an `Entry` (the element shape of a chunk payload). -/
def encEntry (e : Entry) : List Nat :=
  encNat e.id ++ (encNat e.ts ++ (encStr e.host ++ (encStr e.cmd ++
    (encStr e.path ++ encStr e.session))))

/-- Deserialisation of an `Entry`. -/
def decEntry (bs : List Nat) : Option (Entry × List Nat) :=
  match decNat bs with
  | none => none
  | some (id, r1) =>
    match decNat r1 with
    | none => none
    | some (ts, r2) =>
      match decStr r2 with
      | none => none
      | some (host, r3) =>
        match decStr r3 with
        | none => none
        | some (cmd, r4) =>
          match decStr r4 with
          | none => none
          | some (path, r5) =>
            match decStr r5 with
            | none => none
            | some (session, r6) => some (⟨id, ts, host, cmd, path, session⟩, r6)

/-- `history/store.rs` `v0::Entry`: the legacy entry layout without `path`. -/
structure EntryV0 where
  id : Nat
  ts : Nat
  host : Str
  cmd : Str
  session : Str
deriving Repr, DecidableEq, Inhabited

/-- `v0::Entry::convert`: lift a legacy entry to the current layout with an
empty `path`. -/
def EntryV0.convert (e : EntryV0) : Entry :=
  { id := e.id, ts := e.ts, host := e.host, cmd := e.cmd,
    path := [], session := e.session }

/-- Serialisation of a legacy `v0::Entry`. -/
def encEntryV0 (e : EntryV0) : List Nat :=
  encNat e.id ++ (encNat e.ts ++ (encStr e.host ++ (encStr e.cmd ++ encStr e.session)))

/-- Deserialisation of a legacy `v0::Entry`. -/
def decEntryV0 (bs : List Nat) : Option (EntryV0 × List Nat) :=
  match decNat bs with
  | none => none
  | some (id, r1) =>
    match decNat r1 with
    | none => none
    | some (ts, r2) =>
      match decStr r2 with
      | none => none
      | some (host, r3) =>
        match decStr r3 with
        | none => none
        | some (cmd, r4) =>
          match decStr r4 with
          | none => none
          | some (session, r5) => some (⟨id, ts, host, cmd, session⟩, r5)

/-! ### Chunks and symbolic AEAD -/

/-- `history/store.rs` `Chunk`. -/
structure Chunk where
  start : Nat
  entries : List Entry
deriving Repr, DecidableEq, Inhabited

/-- AES-256 key, modeled as its byte list. -/
abbrev Key := List Nat

/-- Symbolic AES-256-GCM ciphertext: sealing is modeled as the abstract
(injective) pairing of key, nonce and plaintext; opening checks the key and
nonce and returns the plaintext, else fails (auth failure).  This is the
inverse-pair model of `seal_in_place_append_tag` / `open_in_place`. -/
structure Sealed where
  key : Key
  nonce : Nat
  plain : List Nat
deriving Repr, DecidableEq, Inhabited

/-- AEAD sealing (the random nonce is an explicit argument). -/
def aeadSeal (key : Key) (nonce : Nat) (plain : List Nat) : Sealed :=
  { key := key, nonce := nonce, plain := plain }

/-- AEAD opening. -/
def aeadOpen (key : Key) (nonce : Nat) (s : Sealed) : Option (List Nat) :=
  if s.key = key ∧ s.nonce = nonce then some s.plain else none

/-- `history/store.rs` `EncryptedChunk`.  `version` is not part of the
serialised body (`#[serde(skip)]`); it travels in the record header. -/
structure EncryptedChunk where
  version : Nat
  start : Nat
  nonce : Nat
  data : Sealed
deriving Repr, DecidableEq, Inhabited

/-- Serialisation of a `Sealed` ciphertext (stands for the ciphertext
bytes). -/
def encSealed (s : Sealed) : List Nat :=
  encListN encNat s.key ++ (encNat s.nonce ++ encListN encNat s.plain)

/-- Deserialisation of a `Sealed` ciphertext. -/
def decSealed (bs : List Nat) : Option (Sealed × List Nat) :=
  match decListN decNat bs with
  | none => none
  | some (key, r1) =>
    match decNat r1 with
    | none => none
    | some (nonce, r2) =>
      match decListN decNat r2 with
      | none => none
      | some (plain, r3) => some (⟨key, nonce, plain⟩, r3)

/-- msgpack body of an `EncryptedChunk` record (`version` skipped). -/
def encodeEC (ec : EncryptedChunk) : List Nat :=
  encNat ec.start ++ (encNat ec.nonce ++ encSealed ec.data)

/-- Deserialisation of an `EncryptedChunk` body; the skipped `version` field
deserialises to its default 0 (the caller overwrites it from the header). -/
def decodeEC (bs : List Nat) : Option EncryptedChunk :=
  match decNat bs with
  | none => none
  | some (start, r1) =>
    match decNat r1 with
    | none => none
    | some (nonce, r2) =>
      match decSealed r2 with
      | none => none
      | some (s, _) => some { version := 0, start := start, nonce := nonce, data := s }

/-! ### Chunk codec (`history/store.rs`) -/

/-- `Chunk::read`: deserialise the decrypted payload as the current entry
list. -/
def Chunk.read (start : Nat) (data : List Nat) : Except Err Chunk :=
  match decListN decEntry data with
  | some (es, _) => .ok { start := start, entries := es }
  | none => .error .decode

/-- `v0::read`: deserialise the decrypted payload with the legacy entry
layout and lift every entry. -/
def v0read (start : Nat) (data : List Nat) : Except Err Chunk :=
  match decListN decEntryV0 data with
  | some (es, _) => .ok { start := start, entries := es.map EntryV0.convert }
  | none => .error .decode

/-- `EncryptedChunk::encrypt`: serialise the entries, seal them, and keep the
chunk's `start`; records are always written at the current version 1.
(Symbolic sealing cannot fail, so the `CryptoFailure` arm of the Rust
`Result` is not reachable in the model.) -/
def encrypt (nonce : Nat) (chunk : Chunk) (key : Key) : EncryptedChunk :=
  { version := 1, start := chunk.start, nonce := nonce,
    data := aeadSeal key nonce (encListN encEntry chunk.entries) }

/-- `EncryptedChunk::decrypt`: open the ciphertext, then dispatch on the
record version (0 = legacy layout, 1 = current, otherwise invalid). -/
def decrypt (ec : EncryptedChunk) (key : Key) : Except Err Chunk :=
  match aeadOpen key ec.nonce ec.data with
  | none => .error .crypto
  | some data =>
    match ec.version with
    | 0 => v0read ec.start data
    | 1 => Chunk.read ec.start data
    | v => .error (.invalidVersion v)

/-- `EncryptedChunk::read` (store.rs): version 0 and 1 bodies are
deserialised (with the version taken from the header); any other version is
logged and skipped (`Ok(None)`). -/
def EncryptedChunk.readRecord (version : Nat) (data : List Nat) :
    Except Err (Option EncryptedChunk) :=
  if version = 0 ∨ version = 1 then
    match decodeEC data with
    | some ec => .ok (some { ec with version := version })
    | none => .error .decode
  else .ok none

/-- The 8-byte record header plus payload: the top byte is the version, the
low 7 bytes are the big-endian payload length.  (The Rust code computes
`len | (version << 56)`, which equals this sum whenever `len < 2^56`.) -/
def frameRecord (version : Nat) (data : List Nat) : List Nat :=
  beBytes 8 (data.length + version * 2 ^ 56) ++ data

/-- `history/store.rs` `write_chunk`: encrypt the chunk and append the framed
record. -/
def write_chunk (nonce : Nat) (chunk : Chunk) (key : Key) : List Nat :=
  frameRecord (encrypt nonce chunk key).version (encodeEC (encrypt nonce chunk key))

/-- `HistoryFile::read` (store.rs): read the 8-byte header (fewer remaining
bytes are end-of-file), split it into version and length, read the payload
(`read_exact`, so a short payload is an IO error), and hand it to
`EncryptedChunk::read`; a skipped record (unknown version) continues with
the next framed record.  The structural fuel argument only needs to exceed
the byte count, as each step consumes at least 8 bytes; the fuel-exhaustion
arm is unreachable. -/
def historyFileReadAux : Nat → List Nat → Except Err (Option (EncryptedChunk × List Nat))
  | 0, _ => .error .io
  | fuel + 1, bytes =>
    if bytes.length < 8 then .ok none
    else if (bytes.drop 8).length < fromBe (bytes.take 8) % 2 ^ 56 then .error .io
    else
      match EncryptedChunk.readRecord (fromBe (bytes.take 8) / 2 ^ 56)
          ((bytes.drop 8).take (fromBe (bytes.take 8) % 2 ^ 56)) with
      | .error e => .error e
      | .ok (some ec) => .ok (some (ec, (bytes.drop 8).drop (fromBe (bytes.take 8) % 2 ^ 56)))
      | .ok none => historyFileReadAux fuel ((bytes.drop 8).drop (fromBe (bytes.take 8) % 2 ^ 56))

/-- One `HistoryFile::read` call on the remaining bytes of a file. -/
def historyFileRead (bytes : List Nat) : Except Err (Option (EncryptedChunk × List Nat)) :=
  historyFileReadAux (bytes.length + 1) bytes

/-! ### Day files (`Store` in `history/store.rs`)

Day-file names are `chunk.start.format("%Y-%m-%d")` and are compared
byte-lexicographically.  The model renders the day as the zero-padded decimal
of the day number (`ts / 86400`): this renaming is order-isomorphic to
`%Y-%m-%d` (both are fixed-width, zero-padded, and increase with the day) for
dates up to bound `10^8` days, which covers the calendar range where
`%Y-%m-%d` itself is lexicographically monotone (years 1000-9999). -/

/-- The `w` base-10 digits of `n`, most significant first, zero-padded. -/
def padNum : Nat → Nat → List Nat
  | 0, _ => []
  | w + 1, n => n / 10 ^ w % 10 :: padNum w n

/-- The day-file name of a timestamp. -/
def dayDigits (ts : Nat) : Str := padNum 8 (ts / 86400)

/-- `collect::<Result<Vec<Chunk>>>` over decryption of a record list: fails
on the first record that does not decrypt. -/
def decryptAll (key : Key) : List EncryptedChunk → Except Err (List Chunk)
  | [] => .ok []
  | ec :: rest =>
    match decrypt ec key with
    | .error e => .error e
    | .ok c =>
      match decryptAll key rest with
      | .error e => .error e
      | .ok cs => .ok (c :: cs)

/-- The chunk a successful decryption yields (total helper for stating
results; meaningful only where decryption is known to succeed). -/
def decryptD (ec : EncryptedChunk) (key : Key) : Chunk :=
  match decrypt ec key with
  | .ok c => c
  | .error _ => { start := 0, entries := [] }

/-- `Store::read_chunks` (store.rs): iterate the host directory's day files
(given as name/records pairs, in directory-iteration order); skip any file
whose name is lexicographically below `last_read`'s day string without
opening it; in the remaining files keep the records with
`start > last_read` and decrypt them, failing fast on a decryption error.
(Record framing is modeled at record granularity; byte-level framing is
covered separately.) -/
def read_chunks (key : Key) (last_read : Nat) :
    List (Str × List EncryptedChunk) → Except Err (List Chunk)
  | [] => .ok []
  | (name, recs) :: rest =>
    if name < dayDigits last_read then read_chunks key last_read rest
    else
      match decryptAll key (recs.filter (fun ec => last_read < ec.start)) with
      | .error e => .error e
      | .ok new =>
        match read_chunks key last_read rest with
        | .error e => .error e
        | .ok more => .ok (new ++ more)

/-- One step of itertools `chunk_by`: prepend `a` to the first group when it
shares `a`'s key, else open a new group. -/
def chunkByCons (key : α → κ) [DecidableEq κ] (a : α) :
    List (κ × List α) → List (κ × List α)
  | [] => [(key a, [a])]
  | g :: rest => if key a = g.1 then (g.1, a :: g.2) :: rest else (key a, [a]) :: g :: rest

/-- itertools `chunk_by`: group consecutive elements with equal key. -/
def chunkBy (key : α → κ) [DecidableEq κ] : List α → List (κ × List α)
  | [] => []
  | a :: l => chunkByCons key a (chunkBy key l)

/-- `Store::write_chunks` (store.rs): keep the chunks with
`start > last_write` and non-empty `entries`, group consecutive survivors by
the day of `start`, and append each group's records to the day file of that
name (opened in append+create mode).  The result is the append plan: the
day-file name and the chunks whose records are appended to it, in order. -/
def write_chunks (chunks : List Chunk) (last_write : Nat) : List (Str × List Chunk) :=
  chunkBy (fun c => dayDigits c.start)
    (chunks.filter (fun c => decide (last_write < c.start) && !c.entries.isEmpty))

/-- `Store::write_state` (store.rs): `File::create` truncates the snapshot
file immediately; then, if a chunk is provided, `write_chunk` serialises and
appends it (`enc` stands for `write_chunk`'s fallible record production, and
`prev` is the on-disk content the call replaces).  Returns the resulting
file content and the error, if any. -/
def write_state (enc : Chunk → Except Err (List Nat)) (prev : List Nat)
    (chunk : Option Chunk) : List Nat × Option Err :=
  let truncated : List Nat := []
  match chunk with
  | none => (truncated, none)
  | some c =>
    match enc c with
    | .ok bytes => (truncated ++ bytes, none)
    | .error e => (truncated, some e)

/-! ### History core (`history/mod.rs`)

`HashMap<String, Vec<Chunk>>` is modeled as an association list in a fixed
iteration order (the Rust iteration order is unspecified; every theorem
about the merged view holds for each flattening order, see `rebuild_merged`).
`Utc::now()` is the explicit `now` argument of each operation. -/

/-- `self.history.get(host)` (with `or_default` semantics for reading). -/
def lookupChunks : List (Str × List Chunk) → Str → List Chunk
  | [], _ => []
  | p :: rest, host => if p.1 = host then p.2 else lookupChunks rest host

/-- Store a host's chunk list (`entry(host).or_default()` plus mutation). -/
def setChunks : List (Str × List Chunk) → Str → List Chunk → List (Str × List Chunk)
  | [], host, cs => [(host, cs)]
  | p :: rest, host, cs =>
    if p.1 = host then (host, cs) :: rest else p :: setChunks rest host cs

/-- `History::get_active_chunk`, list part: keep the list if its last chunk
is still active (`start > last_write`), otherwise push a fresh chunk
(`Chunk::new()`, i.e. `start = now`, no entries). -/
def getActiveChunks (chunks : List Chunk) (last_write now : Nat) : List Chunk :=
  match chunks.getLast? with
  | some last => if last_write < last.start then chunks else chunks ++ [{ start := now, entries := [] }]
  | none => chunks ++ [{ start := now, entries := [] }]

/-- Push an entry onto the last chunk of a (non-empty) list. -/
def pushToLast (e : Entry) (chunks : List Chunk) : List Chunk :=
  match chunks.getLast? with
  | none => []
  | some last => chunks.dropLast ++ [{ last with entries := last.entries ++ [e] }]

/-- All entries held across all hosts' chunk lists, in iteration order: the
input `rebuild_merged` operates on. -/
def allEntries (hm : List (Str × List Chunk)) : List Entry :=
  hm.flatMap (fun p => p.2.flatMap (fun c => c.entries))

/-- `history/mod.rs` `History` (the `state` path is I/O-only and omitted;
`write_active` is a best-effort side effect with no in-memory state). -/
structure History where
  host : Str
  history : List (Str × List Chunk)
  merged : List Entry
  last_write : Nat
deriving Repr, DecidableEq, Inhabited

/-- `History::add`: create an entry (`Entry::new`; the fresh v7 uuid is the
explicit `id` argument, `ts = now`), push it onto the active chunk (creating
one if needed), and append it to `merged`. -/
def History.add (h : History) (now : Nat) (id : Nat) (cmd path session : Str) : History :=
  let entry : Entry := { id := id, ts := now, host := h.host, cmd := cmd,
                         path := path, session := session }
  let chunks := pushToLast entry (getActiveChunks (lookupChunks h.history h.host) h.last_write now)
  { h with history := setChunks h.history h.host chunks,
           merged := h.merged ++ [entry] }

/-- `History::update`: if no merged entry carries `id`, fail with the
unknown-id error before touching any state (the early `return Err` leaves
`self` unchanged, which the pair-with-original models); otherwise push
`Entry::existing(id, host, cmd, "", session)` (with `ts = now`) onto the
active chunk and rebuild `merged`. -/
def History.update (h : History) (now : Nat) (id : Nat) (cmd session : Str) :
    History × Option Err :=
  if ¬ h.merged.any (fun e => e.id == id) then (h, some (.unknownId id))
  else
    let entry : Entry := { id := id, ts := now, host := h.host, cmd := cmd,
                           path := [], session := session }
    let chunks := pushToLast entry (getActiveChunks (lookupChunks h.history h.host) h.last_write now)
    let history2 := setChunks h.history h.host chunks
    ({ h with history := history2, merged := rebuild_merged (allEntries history2) }, none)

/-- `History::save`, in-memory effect: the on-disk append is
`write_chunks`, after which `last_write` advances to `now`. -/
def History.save (h : History) (now : Nat) : History :=
  { h with last_write := now }

/-- The `BTreeMap<Uuid, String>` of current commands built by
`History::load_entries`: later merged entries overwrite earlier ones. -/
def insertCmd : List (Nat × Str) → Nat → Str → List (Nat × Str)
  | [], id, cmd => [(id, cmd)]
  | p :: rest, id, cmd =>
    if p.1 = id then (id, cmd) :: rest else p :: insertCmd rest id cmd

/-- Lookup in the current-command map. -/
def lookupCmd : List (Nat × Str) → Nat → Option Str
  | [], _ => none
  | p :: rest, id => if p.1 = id then some p.2 else lookupCmd rest id

/-- `History::load_entries`: entries of other hosts are dropped; entries
whose id already maps to the same `cmd` are dropped; the rest are pushed
onto the active chunk (which `get_active_chunk` creates even when nothing
ends up pushed); `merged` is rebuilt only if something was pushed. -/
def History.load_entries (h : History) (now : Nat) (entries : List Entry) : History :=
  let current := h.merged.foldl (fun m e => insertCmd m e.id e.cmd) []
  let keep := entries.filter (fun e =>
    e.host == h.host &&
      match lookupCmd current e.id with
      | none => true
      | some cmd => !(cmd == e.cmd))
  let active := getActiveChunks (lookupChunks h.history h.host) h.last_write now
  let chunks := keep.foldl (fun cs e => pushToLast e cs) active
  let history2 := setChunks h.history h.host chunks
  { h with history := history2,
           merged := if keep.isEmpty then h.merged
                     else rebuild_merged (allEntries history2) }

/-- Comparison used by `sort_unstable_by_key(|chunk| chunk.start)`. -/
def chunkLe (a b : Chunk) : Bool := decide (a.start ≤ b.start)

/-- `History::read_host`: compute the per-host read watermark (the `start`
of the last chunk already held, or the epoch), keep the file records'
chunks with `start > last_read` (day files whose names are below the
watermark day are skipped without being opened, which drops no chunk with
`start > last_read` by the day-name monotonicity proved below, so the model
takes the concatenated surviving chunks of the opened files), append them,
and sort the whole list by `start`.  `merged` is rebuilt only if new chunks
arrived.  (`sort_unstable_by_key` is modeled by a stable sort; the orders
agree except on ties of `start`, which carry no guarantee in the code.) -/
def History.read_host (h : History) (host : Str) (fileChunks : List Chunk) : History :=
  let old := lookupChunks h.history host
  let last_read := match old.getLast? with
    | some c => c.start
    | none => 0
  let newChunks := fileChunks.filter (fun c => last_read < c.start)
  let chunks := (old ++ newChunks).mergeSort chunkLe
  let history2 := setChunks h.history host chunks
  { h with history := history2,
           merged := if newChunks.isEmpty then h.merged
                     else rebuild_merged (allEntries history2) }

/-- `History::read_active_chunk`: error (state unchanged) if an active chunk
already exists; otherwise, if the snapshot file holds chunks, set
`last_write` to one second before the first snapshot chunk's `start` and
push all snapshot chunks, rebuilding `merged` if they contain entries. -/
def History.read_active_chunk (h : History) (fileChunks : List Chunk) : History :=
  let old := lookupChunks h.history h.host
  let activeExists := match old.getLast? with
    | some last => decide (h.last_write < last.start)
    | none => false
  if activeExists then h
  else
    match fileChunks with
    | [] => { h with history := setChunks h.history h.host old }
    | c :: rest =>
      let history2 := setChunks h.history h.host (old ++ (c :: rest))
      let added : Nat := (c :: rest).foldl (fun n k => n + k.entries.length) 0
      { h with history := history2, last_write := c.start - 1,
               merged := if added = 0 then h.merged
                         else rebuild_merged (allEntries history2) }

/-- `History::get_chunk_by_hour` for one entry: append the entry to the
host's last chunk when that chunk already starts at the entry's hour
(`duration_trunc` to the hour), else open a new chunk at that hour. -/
def rebuildStep (hm : List (Str × List Chunk)) (e : Entry) : List (Str × List Chunk) :=
  if (lookupChunks hm e.host).getLast?.elim false (fun last => last.start = e.ts / 3600 * 3600)
  then setChunks hm e.host (pushToLast e (lookupChunks hm e.host))
  else setChunks hm e.host
    (lookupChunks hm e.host ++ [{ start := e.ts / 3600 * 3600, entries := [e] }])

/-- `History::rebuild_chunks`: re-chunk all merged entries by the hour of
their timestamp. -/
def rebuild_chunks (merged : List Entry) : List (Str × List Chunk) :=
  merged.foldl rebuildStep []

/-- `History::rewrite_all_files`, in-memory effect: rebuild the chunk map
from `merged`, rewrite all files (I/O), and end with `last_write = now`. -/
def History.rewrite_all_files (h : History) (now : Nat) : History :=
  { h with history := rebuild_chunks h.merged, last_write := now }

/-! ### Operation language for the history invariant (C9) -/

/-- One in-memory history operation.  `History::load` is `read_host` for
each host directory followed by `read_active_chunk`; `History::sync` is
`save` followed by `read_host` for the other hosts. -/
inductive Op where
  | add (now : Nat) (id : Nat) (cmd path session : Str)
  | update (now : Nat) (id : Nat) (cmd session : Str)
  | save (now : Nat)
  | loadEntries (now : Nat) (entries : List Entry)
  | readHost (host : Str) (fileChunks : List Chunk)
  | readActive (fileChunks : List Chunk)
  | rebuildAll (now : Nat)
deriving Repr

/-- Interpretation of one operation. -/
def stepOp (h : History) : Op → History
  | .add now id cmd path session => h.add now id cmd path session
  | .update now id cmd session => (h.update now id cmd session).1
  | .save now => h.save now
  | .loadEntries now entries => h.load_entries now entries
  | .readHost host fileChunks => h.read_host host fileChunks
  | .readActive fileChunks => h.read_active_chunk fileChunks
  | .rebuildAll now => h.rewrite_all_files now

/-- Run a sequence of operations. -/
def runOps (h : History) (ops : List Op) : History := ops.foldl stepOp h

/-- Every chunk start and merged timestamp in the state is at most `t`:
the wall clock does not run backwards across operations. -/
def ClockLe (h : History) (t : Nat) : Prop :=
  (∀ p ∈ h.history, ∀ c ∈ p.2, c.start ≤ t) ∧ (∀ e ∈ h.merged, e.ts ≤ t)

/-- Well-formedness of one operation against the state it runs in: clock
monotonicity for the clock-reading operations, and for snapshot loads that
the snapshot's chunks are in order and no older than the chunks already
held for this host (the snapshot always holds this host's most recent
chunk). -/
def OpOk (h : History) : Op → Prop
  | .add now _ _ _ _ => ClockLe h now
  | .update now _ _ _ => ClockLe h now
  | .save _ => True
  | .loadEntries now _ => ClockLe h now
  | .readHost _ _ => True
  | .readActive fileChunks =>
      List.Pairwise (fun a b => a.start ≤ b.start) fileChunks ∧
      ∀ a ∈ lookupChunks h.history h.host, ∀ b ∈ fileChunks, a.start ≤ b.start
  | .rebuildAll _ => True

/-- Well-formedness of an operation sequence (each operation against the
state it runs in). -/
def WfOps : History → List Op → Prop
  | _, [] => True
  | h, op :: rest => OpOk h op ∧ WfOps (stepOp h op) rest

/-- Per-host chunk lists have monotone non-decreasing `start` values: the
C9 invariant. -/
def chunksSorted (hm : List (Str × List Chunk)) : Prop :=
  ∀ p ∈ hm, List.Pairwise (fun a b : Chunk => a.start ≤ b.start) p.2

/-- The auxiliary invariant carried through the induction: the chunk lists
are sorted and the merged view is sorted by timestamp. -/
def HistInv (h : History) : Prop :=
  chunksSorted h.history ∧ List.Pairwise (fun a b : Entry => a.ts ≤ b.ts) h.merged

/-! ### Socket protocol (`api.rs`, `server.rs`) -/

/-- `api.rs` `Message` (request and response variants used by the claims). -/
inductive Message where
  | ack
  | error (e : Err)
  | ping
  | pong
  | historyList (es : List Entry)
deriving Repr, DecidableEq, Inhabited

/-- Model of `std::io` read errors. -/
inductive IoErrKind where
  | unexpectedEof
  | other
deriving Repr, DecidableEq, Inhabited

/-- `Read::read_exact` over an explicit byte stream: fails with
`UnexpectedEof` when fewer bytes remain. -/
def read_exact (n : Nat) (s : List Nat) : Except IoErrKind (List Nat × List Nat) :=
  if s.length < n then .error .unexpectedEof else .ok (s.take n, s.drop n)

/-- `Connection::read_message`: read the 8-byte little-endian length header
with `read_exact`, then read exactly that many body bytes. -/
def read_message (s : List Nat) : Except IoErrKind (List Nat × List Nat) :=
  match read_exact 8 s with
  | .error e => .error e
  | .ok (hdr, r1) =>
    match read_exact (fromLe hdr) r1 with
    | .error e => .error e
    | .ok (data, r2) => .ok (data, r2)

/-- `Connection::receive`: an `UnexpectedEof` from `read_message` (anywhere,
header or body) is a clean disconnect (`Ok(None)`); other IO errors
propagate; a well-framed body is msgpack-decoded (`dec` stands for
`rmp_serde::from_slice`), and a decode failure is an error. -/
def receive (dec : List Nat → Option Message) (s : List Nat) : Except Err (Option Message) :=
  match read_message s with
  | .error e => if e = .unexpectedEof then .ok none else .error .io
  | .ok (data, _) =>
    match dec data with
    | some m => .ok (some m)
    | none => .error .decode

/-- The `Message::Update` arm of `Server::handle_request` (server.rs): the
responses sent on the connection, in order, as a function of the
`History::update` result.  The Rust arm sends an `Error` on failure and
then unconditionally sends an `Ack` (there is no `else` joining the two
sends, unlike the `Sync` arm). -/
def handle_update (updateResult : Option Err) : List Message :=
  (match updateResult with
   | some e => [Message.error e]
   | none => []) ++ [Message.ack]

/-! ### Decidability of the invariant propositions (for witnesses) -/

instance instDecChunksSorted (hm : List (Str × List Chunk)) : Decidable (chunksSorted hm) :=
  inferInstanceAs
    (Decidable (∀ p ∈ hm, List.Pairwise (fun a b : Chunk => a.start ≤ b.start) p.2))

instance instDecHistInv (h : History) : Decidable (HistInv h) :=
  inferInstanceAs (Decidable (chunksSorted h.history ∧
    List.Pairwise (fun a b : Entry => a.ts ≤ b.ts) h.merged))

instance instDecClockLe (h : History) (t : Nat) : Decidable (ClockLe h t) :=
  inferInstanceAs (Decidable ((∀ p ∈ h.history, ∀ c ∈ p.2, c.start ≤ t)
    ∧ (∀ e ∈ h.merged, e.ts ≤ t)))

instance instDecOpOk (h : History) : (op : Op) → Decidable (OpOk h op)
  | .add now _ _ _ _ => inferInstanceAs (Decidable (ClockLe h now))
  | .update now _ _ _ => inferInstanceAs (Decidable (ClockLe h now))
  | .save _ => inferInstanceAs (Decidable True)
  | .loadEntries now _ => inferInstanceAs (Decidable (ClockLe h now))
  | .readHost _ _ => inferInstanceAs (Decidable True)
  | .readActive fileChunks =>
    inferInstanceAs (Decidable
      (List.Pairwise (fun a b : Chunk => a.start ≤ b.start) fileChunks ∧
       ∀ a ∈ lookupChunks h.history h.host, ∀ b ∈ fileChunks, a.start ≤ b.start))
  | .rebuildAll _ => inferInstanceAs (Decidable True)

instance instDecWfOps : (h : History) → (ops : List Op) → Decidable (WfOps h ops)
  | _, [] => inferInstanceAs (Decidable True)
  | h, op :: rest =>
    have : Decidable (WfOps (stepOp h op) rest) := instDecWfOps _ _
    inferInstanceAs (Decidable (OpOk h op ∧ WfOps (stepOp h op) rest))

/-! ### Concrete example data used by witnesses -/

/-- Example store key. -/
def exKey : Key := [7]

/-- Example host directory: a day-1 file and a day-4 file, each holding one
record written with `exKey`. -/
def exDir : List (Str × List EncryptedChunk) :=
  [(dayDigits 86400, [encrypt 11 { start := 86400, entries := [] } exKey]),
   (dayDigits 345600,
    [encrypt 12 { start := 345600, entries := [Entry.mk 1 345600 [104] [108] [] [115]] } exKey])]

/-- Example in-memory history: one host with one saved-entry chunk, merged
view containing that entry, watermark just before the chunk. -/
def exHist : History :=
  { host := [104],
    history := [([104], [Chunk.mk 5 [Entry.mk 1 5 [104] [108] [] [115]]])],
    merged := [Entry.mk 1 5 [104] [108] [] [115]],
    last_write := 4 }

/-- Example operation sequence exercising every operation kind. -/
def exOps : List Op :=
  [.add 7 2 [97] [] [115], .update 8 1 [98] [115], .save 9,
   .readHost [106] [Chunk.mk 3 []], .readActive [Chunk.mk 12 []], .rebuildAll 13]

/-! ### General helper lemmas -/

theorem entryLe_trans (a b c : Entry) (hab : entryLe a b = true) (hbc : entryLe b c = true) :
    entryLe a c = true := by
  simp only [entryLe, decide_eq_true_eq] at *
  exact le_trans hab hbc

theorem entryLe_total (a b : Entry) : (entryLe a b || entryLe b a) = true := by
  simp only [entryLe, Bool.or_eq_true, decide_eq_true_eq]
  exact le_total a.key b.key

theorem natLeB_trans (a b c : Nat) (hab : decide (a ≤ b) = true) (hbc : decide (b ≤ c) = true) :
    decide (a ≤ c) = true := by
  simp only [decide_eq_true_eq] at *
  omega

theorem natLeB_total (a b : Nat) : (decide (a ≤ b) || decide (b ≤ a)) = true := by
  simp only [Bool.or_eq_true, decide_eq_true_eq]
  omega

theorem headD_mem {α : Type} [Inhabited α] {l : List α} (h : l ≠ []) :
    l.headD default ∈ l := by
  cases l with
  | nil => exact absurd rfl h
  | cons a t => simp

theorem getLastD_mem {α : Type} [Inhabited α] {l : List α} (h : l ≠ []) :
    l.getLastD default ∈ l := by
  induction l with
  | nil => exact absurd rfl h
  | cons a t ih =>
    cases t with
    | nil => simp
    | cons b u =>
      rw [List.getLastD_cons]
      exact List.mem_cons_of_mem a (ih (by simp))

theorem mergeSort_ne_nil {α : Type} {le : α → α → Bool} {l : List α} (h : l ≠ []) :
    l.mergeSort le ≠ [] := by
  intro hn
  exact h (List.Perm.eq_nil ((List.mergeSort_perm l le).symm.trans (hn ▸ List.Perm.refl _)))

theorem sortEntries_ne_nil {l : List Entry} (h : l ≠ []) : sortEntries l ≠ [] :=
  mergeSort_ne_nil h

theorem mem_sortEntries {l : List Entry} {e : Entry} : e ∈ sortEntries l ↔ e ∈ l :=
  (List.mergeSort_perm l entryLe).mem_iff

/-! ### C1 helper lemmas -/

/-- `collapse_entries` in closed form: it always returns the head of the
stably sorted group with the `cmd` of its last element. -/
theorem collapse_entries_eq (g : List Entry) (hg : g ≠ []) :
    collapse_entries g =
      { (sortEntries g).headD default with cmd := ((sortEntries g).getLastD default).cmd } := by
  unfold collapse_entries
  by_cases h1 : g.length = 1
  · obtain ⟨e, rfl⟩ := List.length_eq_one.mp h1
    simp [sortEntries, List.mergeSort_singleton]
  · simp [h1]

theorem collapse_entries_id (g : List Entry) (i : Nat) (hg : g ≠ [])
    (hall : ∀ e ∈ g, e.id = i) : (collapse_entries g).id = i := by
  rw [collapse_entries_eq g hg]
  show ((sortEntries g).headD default).id = i
  exact hall _ (mem_sortEntries.mp (headD_mem (sortEntries_ne_nil hg)))

/-- Filtering a map over distinct keys down to one key yields that key's
image (filtered by `p`). -/
theorem filter_map_nodup (ids : List Nat) (f : Nat → Entry) (p : Entry → Bool) (i : Nat)
    (hn : ids.Nodup) (hf : ∀ j ∈ ids, (f j).id = j) (hi : i ∈ ids) :
    (ids.map f).filter (fun e => decide (e.id = i) && p e) =
      if p (f i) then [f i] else [] := by
  induction ids with
  | nil => cases hi
  | cons j tl ih =>
    have hjtl : j ∉ tl := (List.nodup_cons.mp hn).1
    have hntl : tl.Nodup := (List.nodup_cons.mp hn).2
    rcases List.mem_cons.mp hi with rfl | hitl
    · have hfi : (f i).id = i := hf i (List.mem_cons_self i tl)
      have htl : (tl.map f).filter (fun e => decide (e.id = i) && p e) = [] := by
        rw [List.filter_eq_nil_iff]
        intro a ha
        obtain ⟨k, hk, rfl⟩ := List.mem_map.mp ha
        have hfk : (f k).id = k := hf k (List.mem_cons_of_mem _ hk)
        have hki : k ≠ i := fun h => hjtl (h ▸ hk)
        simp [hfk, hki]
      by_cases hp : p (f i)
      · simp [List.filter_cons, hfi, hp, htl]
      · simp [List.filter_cons, hfi, hp, htl]
    · have hji : j ≠ i := fun h => hjtl (h ▸ hitl)
      have hfj : (f j).id = j := hf j (List.mem_cons_self j tl)
      rw [List.map_cons, List.filter_cons, if_neg (by simp [hfj, hji])]
      exact ih hntl (fun k hk => hf k (List.mem_cons_of_mem _ hk)) hitl

/-! ### C1 -/

/-- C1: `rebuild_merged` groups the entries held across all hosts' chunk
lists by id and, for each id, emits exactly one representative: its `cmd` is
the `cmd` of the last entry of the group under the total order
(ts, host, cmd, path), all other fields are those of the first entry of the
group under that order; if the resulting `cmd` is empty the id is omitted
entirely; and the result is sorted by the same total order.  (Ties in the
total order are resolved by the stable sort, as in the Rust code.) -/
theorem c1_rebuild_merged_correct (l : List Entry) (i : Nat) (hi : ∃ e ∈ l, e.id = i) :
    ((rebuild_merged l).filter (fun e => e.id = i) =
      if ((sortEntries (l.filter (fun e => e.id = i))).getLastD default).cmd = [] then []
      else [{ (sortEntries (l.filter (fun e => e.id = i))).headD default with
              cmd := ((sortEntries (l.filter (fun e => e.id = i))).getLastD default).cmd }])
    ∧ List.Pairwise (fun a b => entryLe a b = true) (rebuild_merged l)
    ∧ (∀ e ∈ rebuild_merged l, ∃ e2 ∈ l, e2.id = e.id) := by
  obtain ⟨e0, he0, he0i⟩ := hi
  have hgne : l.filter (fun e => e.id = i) ≠ [] := by
    have : e0 ∈ l.filter (fun e => e.id = i) := List.mem_filter.mpr ⟨he0, by simp [he0i]⟩
    intro h
    rw [h] at this
    cases this
  have hnodup : ((l.map Entry.id).dedup.mergeSort (fun a b => decide (a ≤ b))).Nodup :=
    (List.mergeSort_perm _ _).symm.nodup (List.nodup_dedup _)
  have hmemids : ∀ j, j ∈ (l.map Entry.id).dedup.mergeSort (fun a b => decide (a ≤ b)) ↔
      ∃ e ∈ l, e.id = j := by
    intro j
    rw [(List.mergeSort_perm _ _).mem_iff, List.mem_dedup, List.mem_map]
  have hiids : i ∈ (l.map Entry.id).dedup.mergeSort (fun a b => decide (a ≤ b)) :=
    (hmemids i).mpr ⟨e0, he0, he0i⟩
  have hf : ∀ j ∈ (l.map Entry.id).dedup.mergeSort (fun a b => decide (a ≤ b)),
      (collapse_entries (l.filter (fun e => e.id = j))).id = j := by
    intro j hj
    obtain ⟨ej, hej, hejid⟩ := (hmemids j).mp hj
    apply collapse_entries_id _ j
    · have : ej ∈ l.filter (fun e => e.id = j) := List.mem_filter.mpr ⟨hej, by simp [hejid]⟩
      intro h
      rw [h] at this
      cases this
    · intro e he
      have := (List.mem_filter.mp he).2
      simpa using this
  refine ⟨?_, ?_, ?_⟩
  · have h1 : ((rebuild_merged l).filter (fun e => decide (e.id = i))).Perm
        (if (!(collapse_entries (l.filter (fun e => e.id = i))).cmd.isEmpty) = true then
          [collapse_entries (l.filter (fun e => e.id = i))] else []) := by
      unfold rebuild_merged
      refine ((List.mergeSort_perm _ entryLe).filter (fun e => decide (e.id = i))).trans ?_
      rw [List.filter_filter, filter_map_nodup _ _ _ _ hnodup hf hiids]
    by_cases hc : ((sortEntries (l.filter (fun e => e.id = i))).getLastD default).cmd = []
    · have hfalse : (!(collapse_entries (l.filter (fun e => e.id = i))).cmd.isEmpty) = false := by
        rw [collapse_entries_eq _ hgne]
        show (!((sortEntries (l.filter (fun e => e.id = i))).getLastD default).cmd.isEmpty) = false
        rw [hc]
        rfl
      rw [if_pos hc]
      rw [if_neg (by simp [hfalse])] at h1
      exact h1.eq_nil
    · have htrue : (!(collapse_entries (l.filter (fun e => e.id = i))).cmd.isEmpty) = true := by
        rw [collapse_entries_eq _ hgne]
        show (!((sortEntries (l.filter (fun e => e.id = i))).getLastD default).cmd.isEmpty) = true
        cases hcl : ((sortEntries (l.filter (fun e => e.id = i))).getLastD default).cmd with
        | nil => exact absurd hcl hc
        | cons a t => rfl
      rw [if_neg hc]
      rw [if_pos htrue] at h1
      rw [List.perm_singleton.mp h1, collapse_entries_eq _ hgne]
  · exact List.sorted_mergeSort entryLe_trans entryLe_total _
  · intro e he
    unfold rebuild_merged at he
    have he2 := (List.mergeSort_perm _ _).mem_iff.mp he
    obtain ⟨he3, -⟩ := List.mem_filter.mp he2
    obtain ⟨j, hj, rfl⟩ := List.mem_map.mp he3
    obtain ⟨e2, he2l, he2id⟩ := (hmemids j).mp hj
    exact ⟨e2, he2l, by rw [he2id, hf j hj]⟩

/-- Witness for C1 at a concrete input: an entry with id 1 that was edited
(cmd "ls" then "cd") and a tombstoned entry with id 2. -/
theorem c1_rebuild_merged_correct_witness :
    (∃ e ∈ [Entry.mk 1 10 [104] [108, 115] [] [115],
            Entry.mk 1 11 [104] [99, 100] [] [115],
            Entry.mk 2 12 [104] [] [] [115]], e.id = 1) ∧
    (((rebuild_merged [Entry.mk 1 10 [104] [108, 115] [] [115],
            Entry.mk 1 11 [104] [99, 100] [] [115],
            Entry.mk 2 12 [104] [] [] [115]]).filter (fun e => e.id = 1) =
      if ((sortEntries ([Entry.mk 1 10 [104] [108, 115] [] [115],
            Entry.mk 1 11 [104] [99, 100] [] [115],
            Entry.mk 2 12 [104] [] [] [115]].filter
              (fun e => e.id = 1))).getLastD default).cmd = [] then []
      else [{ (sortEntries ([Entry.mk 1 10 [104] [108, 115] [] [115],
            Entry.mk 1 11 [104] [99, 100] [] [115],
            Entry.mk 2 12 [104] [] [] [115]].filter
              (fun e => e.id = 1))).headD default with
              cmd := ((sortEntries ([Entry.mk 1 10 [104] [108, 115] [] [115],
            Entry.mk 1 11 [104] [99, 100] [] [115],
            Entry.mk 2 12 [104] [] [] [115]].filter
              (fun e => e.id = 1))).getLastD default).cmd }])
    ∧ List.Pairwise (fun a b => entryLe a b = true)
        (rebuild_merged [Entry.mk 1 10 [104] [108, 115] [] [115],
            Entry.mk 1 11 [104] [99, 100] [] [115],
            Entry.mk 2 12 [104] [] [] [115]])
    ∧ (∀ e ∈ rebuild_merged [Entry.mk 1 10 [104] [108, 115] [] [115],
            Entry.mk 1 11 [104] [99, 100] [] [115],
            Entry.mk 2 12 [104] [] [] [115]],
        ∃ e2 ∈ [Entry.mk 1 10 [104] [108, 115] [] [115],
            Entry.mk 1 11 [104] [99, 100] [] [115],
            Entry.mk 2 12 [104] [] [] [115]], e2.id = e.id)) :=
  ⟨by decide, c1_rebuild_merged_correct _ 1 (by decide)⟩

/-! ### Serialisation round-trip lemmas -/

theorem decNat_encNatAux (fuel : Nat) : ∀ (n : Nat), n ≤ fuel → ∀ (rest : List Nat),
    decNat (encNatAux fuel n ++ rest) = some (n, rest) := by
  induction fuel with
  | zero =>
    intro n hn rest
    have : n = 0 := by omega
    subst this
    simp [encNatAux, decNat]
  | succ fuel ih =>
    intro n hn rest
    rw [encNatAux]
    by_cases h : n < 128
    · simp [h, decNat]
    · have hdiv : n / 128 ≤ fuel := by
        have := Nat.div_lt_self (show 0 < n by omega) (show 1 < 128 by omega)
        omega
      rw [if_neg h, List.cons_append, decNat, if_neg (by omega),
        ih (n / 128) hdiv rest]
      simp only [Option.some.injEq, Prod.mk.injEq, and_true]
      omega

theorem decNat_encNat (n : Nat) (rest : List Nat) :
    decNat (encNat n ++ rest) = some (n, rest) :=
  decNat_encNatAux n n le_rfl rest

theorem decListAux_encAll {α : Type} (dec : List Nat → Option (α × List Nat))
    (enc : α → List Nat) (l : List α) (rest : List Nat)
    (h : ∀ a ∈ l, ∀ r, dec (enc a ++ r) = some (a, r)) :
    decListAux dec l.length (encAll enc l ++ rest) = some (l, rest) := by
  induction l with
  | nil => simp [encAll, decListAux]
  | cons a t ih =>
    simp [encAll, decListAux, List.append_assoc, h a (List.mem_cons_self a t),
      ih (fun b hb r => h b (List.mem_cons_of_mem a hb) r)]

theorem decListN_encListN {α : Type} (dec : List Nat → Option (α × List Nat))
    (enc : α → List Nat) (l : List α) (rest : List Nat)
    (h : ∀ a ∈ l, ∀ r, dec (enc a ++ r) = some (a, r)) :
    decListN dec (encListN enc l ++ rest) = some (l, rest) := by
  simp [encListN, decListN, List.append_assoc, decNat_encNat,
    decListAux_encAll dec enc l rest h]

theorem decListN_encListN_nil {α : Type} (dec : List Nat → Option (α × List Nat))
    (enc : α → List Nat) (l : List α)
    (h : ∀ a ∈ l, ∀ r, dec (enc a ++ r) = some (a, r)) :
    decListN dec (encListN enc l) = some (l, []) := by
  have := decListN_encListN dec enc l [] h
  rwa [List.append_nil] at this

theorem decStr_encStr (s : Str) (rest : List Nat) :
    decStr (encStr s ++ rest) = some (s, rest) :=
  decListN_encListN decNat encNat s rest (fun a _ r => decNat_encNat a r)

theorem decStr_encStr_nil (s : Str) : decStr (encStr s) = some (s, []) :=
  decListN_encListN_nil decNat encNat s (fun a _ r => decNat_encNat a r)

theorem decEntry_encEntry (e : Entry) (rest : List Nat) :
    decEntry (encEntry e ++ rest) = some (e, rest) := by
  simp [encEntry, decEntry, List.append_assoc, decNat_encNat, decStr_encStr]

theorem decEntryV0_encEntryV0 (e : EntryV0) (rest : List Nat) :
    decEntryV0 (encEntryV0 e ++ rest) = some (e, rest) := by
  simp [encEntryV0, decEntryV0, List.append_assoc, decNat_encNat, decStr_encStr]

theorem decSealed_encSealed (s : Sealed) (rest : List Nat) :
    decSealed (encSealed s ++ rest) = some (s, rest) := by
  simp [encSealed, decSealed, List.append_assoc, decNat_encNat,
    decListN_encListN decNat encNat _ _ (fun a _ r => decNat_encNat a r)]

theorem decSealed_encSealed_nil (s : Sealed) : decSealed (encSealed s) = some (s, []) := by
  have := decSealed_encSealed s []
  rwa [List.append_nil] at this

theorem decodeEC_encodeEC (ec : EncryptedChunk) :
    decodeEC (encodeEC ec) = some { ec with version := 0 } := by
  simp [encodeEC, decodeEC, List.append_assoc, decNat_encNat, decSealed_encSealed_nil]

/-! ### Chunk codec round trip (C2 groundwork) -/

theorem decrypt_encrypt (nonce : Nat) (c : Chunk) (k : Key) :
    decrypt (encrypt nonce c k) k = .ok c := by
  have hopen : aeadOpen k nonce (aeadSeal k nonce (encListN encEntry c.entries)) =
      some (encListN encEntry c.entries) := by simp [aeadSeal, aeadOpen]
  simp [encrypt, decrypt, hopen, Chunk.read,
    decListN_encListN_nil decEntry encEntry c.entries (fun a _ r => decEntry_encEntry a r)]

theorem length_leBytes (k n : Nat) : (leBytes k n).length = k := by
  induction k generalizing n with
  | zero => rfl
  | succ k ih => rw [leBytes, List.length_cons, ih]

theorem length_beBytes (k n : Nat) : (beBytes k n).length = k := by
  rw [beBytes, List.length_reverse, length_leBytes]

theorem fromLe_leBytes (k n : Nat) : fromLe (leBytes k n) = n % 256 ^ k := by
  induction k generalizing n with
  | zero => simp [leBytes, fromLe, Nat.mod_one]
  | succ k ih => rw [leBytes, fromLe, ih, Nat.pow_succ', Nat.mod_mul]

theorem fromBe_beBytes (k n : Nat) : fromBe (beBytes k n) = n % 256 ^ k := by
  rw [fromBe, beBytes, List.reverse_reverse, fromLe_leBytes]

/-! ### Record framing lemmas -/

theorem historyFileReadAux_frame (fuel version : Nat) (data rest : List Nat)
    (hv : version < 256) (hlen : data.length < 2 ^ 56) :
    historyFileReadAux (fuel + 1) (frameRecord version data ++ rest) =
      match EncryptedChunk.readRecord version data with
      | .error e => .error e
      | .ok (some ec) => .ok (some (ec, rest))
      | .ok none => historyFileReadAux fuel rest := by
  have hlb : (beBytes 8 (data.length + version * 2 ^ 56)).length = 8 := length_beBytes _ _
  have htake : (beBytes 8 (data.length + version * 2 ^ 56) ++ (data ++ rest)).take 8 =
      beBytes 8 (data.length + version * 2 ^ 56) := by
    have := List.take_left (beBytes 8 (data.length + version * 2 ^ 56)) (data ++ rest)
    rwa [hlb] at this
  have hdrop : (beBytes 8 (data.length + version * 2 ^ 56) ++ (data ++ rest)).drop 8 =
      data ++ rest := by
    have := List.drop_left (beBytes 8 (data.length + version * 2 ^ 56)) (data ++ rest)
    rwa [hlb] at this
  have hval : fromBe (beBytes 8 (data.length + version * 2 ^ 56)) =
      data.length + version * 2 ^ 56 := by
    rw [fromBe_beBytes]
    have h8 : (256 : Nat) ^ 8 = 2 ^ 64 := by norm_num
    rw [h8]
    omega
  rw [frameRecord, List.append_assoc, historyFileReadAux]
  rw [if_neg (by simp [length_beBytes]), htake, hdrop, hval]
  have hlen56 : (data.length + version * 2 ^ 56) % 2 ^ 56 = data.length := by omega
  have hver : (data.length + version * 2 ^ 56) / 2 ^ 56 = version := by omega
  rw [hlen56, hver, if_neg (by simp), List.take_left, List.drop_left]

theorem historyFileReadAux_congr : ∀ (f1 : Nat), ∀ (bytes : List Nat) (f2 : Nat),
    bytes.length < f1 → bytes.length < f2 →
    historyFileReadAux f1 bytes = historyFileReadAux f2 bytes := by
  intro f1
  induction f1 with
  | zero => intro bytes f2 h1 h2; omega
  | succ f1 ih =>
    intro bytes f2 h1 h2
    cases f2 with
    | zero => omega
    | succ f2 =>
      rw [historyFileReadAux, historyFileReadAux]
      by_cases h8 : bytes.length < 8
      · rw [if_pos h8, if_pos h8]
      · rw [if_neg h8, if_neg h8]
        by_cases hl : (bytes.drop 8).length < fromBe (bytes.take 8) % 2 ^ 56
        · rw [if_pos hl, if_pos hl]
        · rw [if_neg hl, if_neg hl]
          cases hrec : EncryptedChunk.readRecord (fromBe (bytes.take 8) / 2 ^ 56)
              ((bytes.drop 8).take (fromBe (bytes.take 8) % 2 ^ 56)) with
          | error e => rfl
          | ok o =>
            cases o with
            | some ec => rfl
            | none =>
              show historyFileReadAux f1 _ = historyFileReadAux f2 _
              apply ih
              · simp only [List.length_drop]
                omega
              · simp only [List.length_drop]
                omega

theorem historyFileRead_frame (version : Nat) (data rest : List Nat) (hv : version < 256)
    (hlen : data.length < 2 ^ 56) :
    historyFileRead (frameRecord version data ++ rest) =
      match EncryptedChunk.readRecord version data with
      | .error e => .error e
      | .ok (some ec) => .ok (some (ec, rest))
      | .ok none => historyFileRead rest := by
  rw [historyFileRead]
  have hL : (frameRecord version data ++ rest).length = 8 + data.length + rest.length := by
    simp [frameRecord, length_beBytes]
    omega
  rw [hL, historyFileReadAux_frame _ version data rest hv hlen]
  cases hrec : EncryptedChunk.readRecord version data with
  | error e => rfl
  | ok o =>
    cases o with
    | some ec => rfl
    | none =>
      rw [historyFileRead]
      exact historyFileReadAux_congr _ rest _ (by omega) (by omega)

/-! ### C2 -/

/-- C2: for every chunk, 32-byte key and nonce, decryption inverts
encryption at the entry level (AEAD sealing/opening modeled as inverse
operations); `encrypt` never changes `chunk.start`; and a record written by
`write_chunk` and read back by `HistoryFile::read` yields the same encrypted
record and decrypts to the same chunk — the 1-byte-version /
7-byte-big-endian-length framing round-trips (the length bound is the
framing's 7-byte capacity). -/
theorem c2_encrypt_roundtrip (c : Chunk) (k : Key) (nonce : Nat) (rest : List Nat)
    (hlen : (encodeEC (encrypt nonce c k)).length < 2 ^ 56) :
    decrypt (encrypt nonce c k) k = .ok c
    ∧ (encrypt nonce c k).start = c.start
    ∧ historyFileRead (write_chunk nonce c k ++ rest) = .ok (some (encrypt nonce c k, rest))
    ∧ (∀ ec rest2, historyFileRead (write_chunk nonce c k ++ rest) = .ok (some (ec, rest2)) →
        decrypt ec k = .ok c) := by
  have hread : historyFileRead (write_chunk nonce c k ++ rest) =
      .ok (some (encrypt nonce c k, rest)) := by
    rw [write_chunk, show (encrypt nonce c k).version = 1 from rfl,
      historyFileRead_frame 1 _ rest (by omega) hlen]
    simp [EncryptedChunk.readRecord, decodeEC_encodeEC, encrypt]
  refine ⟨decrypt_encrypt nonce c k, rfl, hread, ?_⟩
  intro ec rest2 h
  have heq := hread.symm.trans h
  simp only [Except.ok.injEq, Option.some.injEq, Prod.mk.injEq] at heq
  rw [← heq.1]
  exact decrypt_encrypt nonce c k

/-- Witness for C2 at a concrete chunk, 32-byte key, nonce and trailing
bytes. -/
theorem c2_encrypt_roundtrip_witness :
    ((encodeEC (encrypt 9 (Chunk.mk 5 [Entry.mk 1 5 [104] [108] [] [115]])
        (List.replicate 32 0))).length < 2 ^ 56) ∧
    (decrypt (encrypt 9 (Chunk.mk 5 [Entry.mk 1 5 [104] [108] [] [115]])
        (List.replicate 32 0)) (List.replicate 32 0) =
      .ok (Chunk.mk 5 [Entry.mk 1 5 [104] [108] [] [115]])
    ∧ (encrypt 9 (Chunk.mk 5 [Entry.mk 1 5 [104] [108] [] [115]])
        (List.replicate 32 0)).start = (Chunk.mk 5 [Entry.mk 1 5 [104] [108] [] [115]]).start
    ∧ historyFileRead (write_chunk 9 (Chunk.mk 5 [Entry.mk 1 5 [104] [108] [] [115]])
        (List.replicate 32 0) ++ [1, 2, 3]) =
        .ok (some (encrypt 9 (Chunk.mk 5 [Entry.mk 1 5 [104] [108] [] [115]])
          (List.replicate 32 0), [1, 2, 3]))
    ∧ (∀ ec rest2,
        historyFileRead (write_chunk 9 (Chunk.mk 5 [Entry.mk 1 5 [104] [108] [] [115]])
          (List.replicate 32 0) ++ [1, 2, 3]) = .ok (some (ec, rest2)) →
        decrypt ec (List.replicate 32 0) =
          .ok (Chunk.mk 5 [Entry.mk 1 5 [104] [108] [] [115]]))) :=
  ⟨by decide, c2_encrypt_roundtrip _ _ 9 [1, 2, 3] (by decide)⟩

/-! ### C7 -/

/-- C7: record-version dispatch on read.  A version-0 record is decoded with
the legacy entry layout and each legacy entry is lifted by setting `path` to
the empty string, preserving id, ts, host, cmd and session; a version-1
record is decoded directly; and a record with any other version byte is
skipped — `EncryptedChunk::read` discards it and `HistoryFile::read`
continues with the next framed record instead of failing. -/
theorem c7_version_dispatch (start : Nat) (nonce : Nat) (k : Key)
    (es0 : List EntryV0) (es : List Entry) (v : Nat) (data rest : List Nat)
    (h2 : 2 ≤ v) (hv : v < 256) (hlen : data.length < 2 ^ 56) :
    decrypt { version := 0, start := start, nonce := nonce,
              data := aeadSeal k nonce (encListN encEntryV0 es0) } k =
      .ok { start := start, entries := es0.map EntryV0.convert }
    ∧ (∀ e0 ∈ es0, (EntryV0.convert e0).id = e0.id ∧ (EntryV0.convert e0).ts = e0.ts
        ∧ (EntryV0.convert e0).host = e0.host ∧ (EntryV0.convert e0).cmd = e0.cmd
        ∧ (EntryV0.convert e0).session = e0.session ∧ (EntryV0.convert e0).path = [])
    ∧ decrypt { version := 1, start := start, nonce := nonce,
                data := aeadSeal k nonce (encListN encEntry es) } k =
        .ok { start := start, entries := es }
    ∧ EncryptedChunk.readRecord v data = .ok none
    ∧ historyFileRead (frameRecord v data ++ rest) = historyFileRead rest := by
  refine ⟨?_, ?_, ?_, ?_, ?_⟩
  · have hopen : aeadOpen k nonce (aeadSeal k nonce (encListN encEntryV0 es0)) =
        some (encListN encEntryV0 es0) := by simp [aeadSeal, aeadOpen]
    simp [decrypt, hopen, v0read,
      decListN_encListN_nil decEntryV0 encEntryV0 es0 (fun a _ r => decEntryV0_encEntryV0 a r)]
  · intro e0 _
    exact ⟨rfl, rfl, rfl, rfl, rfl, rfl⟩
  · have hopen : aeadOpen k nonce (aeadSeal k nonce (encListN encEntry es)) =
        some (encListN encEntry es) := by simp [aeadSeal, aeadOpen]
    simp [decrypt, hopen, Chunk.read,
      decListN_encListN_nil decEntry encEntry es (fun a _ r => decEntry_encEntry a r)]
  · rw [EncryptedChunk.readRecord, if_neg (by omega)]
  · rw [historyFileRead_frame v data rest hv hlen, EncryptedChunk.readRecord,
      if_neg (by omega)]

/-- Witness for C7: a concrete legacy record, current record, and a
version-5 record that is skipped. -/
theorem c7_version_dispatch_witness :
    (2 ≤ 5 ∧ (5 : Nat) < 256 ∧ ([6, 6] : List Nat).length < 2 ^ 56) ∧
    (decrypt { version := 0, start := 4, nonce := 9,
               data := aeadSeal [7] 9 (encListN encEntryV0 [EntryV0.mk 1 4 [104] [108] [115]]) } [7] =
      .ok { start := 4, entries := [EntryV0.mk 1 4 [104] [108] [115]].map EntryV0.convert }
    ∧ (∀ e0 ∈ [EntryV0.mk 1 4 [104] [108] [115]],
        (EntryV0.convert e0).id = e0.id ∧ (EntryV0.convert e0).ts = e0.ts
        ∧ (EntryV0.convert e0).host = e0.host ∧ (EntryV0.convert e0).cmd = e0.cmd
        ∧ (EntryV0.convert e0).session = e0.session ∧ (EntryV0.convert e0).path = [])
    ∧ decrypt { version := 1, start := 4, nonce := 9,
                data := aeadSeal [7] 9 (encListN encEntry [Entry.mk 1 4 [104] [108] [] [115]]) } [7] =
        .ok { start := 4, entries := [Entry.mk 1 4 [104] [108] [] [115]] }
    ∧ EncryptedChunk.readRecord 5 [6, 6] = .ok none
    ∧ historyFileRead (frameRecord 5 [6, 6] ++ frameRecord 7 [3]) =
        historyFileRead (frameRecord 7 [3])) :=
  ⟨by decide, c7_version_dispatch 4 9 [7] [EntryV0.mk 1 4 [104] [108] [115]]
    [Entry.mk 1 4 [104] [108] [] [115]] 5 [6, 6] (frameRecord 7 [3])
    (by decide) (by decide) (by decide)⟩

/-! ### Day-name order lemmas (C3 groundwork) -/

theorem lex_cons_iff_nat (a b : Nat) (as bs : List Nat) :
    List.Lex (· < ·) (a :: as) (b :: bs) ↔ a < b ∨ (a = b ∧ List.Lex (· < ·) as bs) := by
  constructor
  · intro h
    cases h with
    | cons h => exact Or.inr ⟨rfl, h⟩
    | rel h => exact Or.inl h
  · rintro (h | ⟨rfl, h⟩)
    · exact List.Lex.rel h
    · exact List.Lex.cons h

theorem padNum_mod (w : Nat) : ∀ a : Nat, padNum w (a % 10 ^ w) = padNum w a := by
  induction w with
  | zero => intro a; rfl
  | succ w ih =>
    intro a
    have hsucc : (10 : Nat) ^ (w + 1) = 10 ^ w * 10 := Nat.pow_succ 10 w
    have hdigit : a % 10 ^ (w + 1) / 10 ^ w % 10 = a / 10 ^ w % 10 := by
      rw [hsucc, Nat.mod_mul, Nat.add_mul_div_left _ _ (Nat.pos_pow_of_pos w (by omega)),
        Nat.div_eq_of_lt (Nat.mod_lt _ (Nat.pos_pow_of_pos w (by omega)))]
      omega
    have htail : padNum w (a % 10 ^ (w + 1)) = padNum w a := by
      have h1 : padNum w (a % 10 ^ (w + 1)) = padNum w (a % 10 ^ (w + 1) % 10 ^ w) :=
        (ih _).symm
      have h2 : a % 10 ^ (w + 1) % 10 ^ w = a % 10 ^ w :=
        Nat.mod_mod_of_dvd a (by rw [hsucc]; exact Dvd.intro 10 rfl)
      rw [h1, h2, ih]
    rw [padNum, padNum, hdigit, htail]

theorem padNum_lt_iff (w : Nat) : ∀ a b : Nat, a < 10 ^ w → b < 10 ^ w →
    (List.Lex (· < ·) (padNum w a) (padNum w b) ↔ a < b) := by
  induction w with
  | zero =>
    intro a b ha hb
    simp only [pow_zero, Nat.lt_one_iff] at ha hb
    subst ha
    subst hb
    constructor
    · intro h
      cases h
    · omega
  | succ w ih =>
    intro a b ha hb
    have hc : (0 : Nat) < 10 ^ w := Nat.pos_pow_of_pos w (by omega)
    have hda : a / 10 ^ w < 10 := by
      rw [Nat.div_lt_iff_lt_mul hc]
      rw [Nat.pow_succ] at ha
      omega
    have hdb : b / 10 ^ w < 10 := by
      rw [Nat.div_lt_iff_lt_mul hc]
      rw [Nat.pow_succ] at hb
      omega
    rw [padNum, padNum, Nat.mod_eq_of_lt hda, Nat.mod_eq_of_lt hdb, lex_cons_iff_nat]
    rw [show padNum w a = padNum w (a % 10 ^ w) from (padNum_mod w a).symm,
      show padNum w b = padNum w (b % 10 ^ w) from (padNum_mod w b).symm,
      ih _ _ (Nat.mod_lt _ hc) (Nat.mod_lt _ hc)]
    have hma := Nat.div_add_mod a (10 ^ w)
    have hmb := Nat.div_add_mod b (10 ^ w)
    constructor
    · rintro (h | ⟨heq, h⟩)
      · by_contra hab
        have : b ≤ a := by omega
        exact absurd (Nat.div_le_div_right (c := 10 ^ w) this) (by omega)
      · rw [heq] at hma
        omega
    · intro hab
      have hq : a / 10 ^ w ≤ b / 10 ^ w := Nat.div_le_div_right (Nat.le_of_lt hab)
      rcases Nat.lt_or_ge (a / 10 ^ w) (b / 10 ^ w) with h | h
      · exact Or.inl h
      · have heq : a / 10 ^ w = b / 10 ^ w := by omega
        refine Or.inr ⟨heq, ?_⟩
        rw [heq] at hma
        omega

theorem dayDigits_lt_iff (a b : Nat) (ha : a / 86400 < 10 ^ 8) (hb : b / 86400 < 10 ^ 8) :
    dayDigits a < dayDigits b ↔ a / 86400 < b / 86400 := by
  show List.Lex (· < ·) _ _ ↔ _
  exact padNum_lt_iff 8 _ _ ha hb

theorem decryptAll_ok (key : Key) (l : List EncryptedChunk)
    (h : ∀ ec ∈ l, ∃ c, decrypt ec key = .ok c) :
    decryptAll key l = .ok (l.map (fun ec => decryptD ec key)) := by
  induction l with
  | nil => rfl
  | cons ec t ih =>
    obtain ⟨c, hc⟩ := h ec (List.mem_cons_self ec t)
    rw [decryptAll, hc, ih (fun e he => h e (List.mem_cons_of_mem ec he))]
    simp [decryptD, hc]

/-! ### C3 -/

/-- C3: `read_chunks` returns exactly the decrypted chunks whose `start` is
strictly greater than `since`, drawn only from day files whose name compares
lexicographically at or above `since`'s day string — files below it are
never opened (dropping them from the directory does not change the result);
in particular, with `since = now` and every record strictly before `now`,
the result is empty.  The hypotheses say the directory is well-formed: each
file's records carry the day the file is named after (as `write_chunks`
arranges), records decrypt under the store key, and days are within the
range where day-name order is lexicographic. -/
theorem c3_read_chunks_watermark (key : Key) (since : Nat)
    (dir : List (Str × List EncryptedChunk))
    (hday : ∀ f ∈ dir, ∀ ec ∈ f.2, dayDigits ec.start = f.1)
    (hdec : ∀ f ∈ dir, ∀ ec ∈ f.2, ∃ c, decrypt ec key = .ok c)
    (hbound : ∀ f ∈ dir, ∀ ec ∈ f.2, ec.start / 86400 < 10 ^ 8)
    (hsince : since / 86400 < 10 ^ 8) :
    read_chunks key since dir =
      .ok ((dir.flatMap (fun f => f.2.filter (fun ec => since < ec.start))).map
        (fun ec => decryptD ec key))
    ∧ read_chunks key since dir =
        read_chunks key since (dir.filter (fun f => ¬ f.1 < dayDigits since))
    ∧ ((∀ f ∈ dir, ∀ ec ∈ f.2, ec.start < since) → read_chunks key since dir = .ok []) := by
  have hskiprec : ∀ (name : Str) (recs : List EncryptedChunk),
      (name, recs) ∈ dir → name < dayDigits since →
      recs.filter (fun ec => since < ec.start) = [] := by
    intro name recs hmem hlt
    rw [List.filter_eq_nil_iff]
    intro ec hec
    have hd := hday _ hmem ec hec
    have hb := hbound _ hmem ec hec
    have hlt2 : dayDigits ec.start < dayDigits since := by
      show List.Lex (· < ·) _ _
      rw [hd]
      exact hlt
    have hdaylt : ec.start / 86400 < since / 86400 :=
      (dayDigits_lt_iff _ _ hb hsince).mp hlt2
    have hstart : ec.start < since := by
      by_contra hge
      have h1 : since ≤ ec.start := by omega
      have h2 : since / 86400 ≤ ec.start / 86400 := Nat.div_le_div_right h1
      omega
    simp only [decide_eq_true_eq]
    omega
  refine ⟨?_, ?_, ?_⟩
  · induction dir with
    | nil => rfl
    | cons f rest ih =>
      obtain ⟨name, recs⟩ := f
      have hday' := fun g hg => hday g (List.mem_cons_of_mem _ hg)
      have hdec' := fun g hg => hdec g (List.mem_cons_of_mem _ hg)
      have hbound' := fun g hg => hbound g (List.mem_cons_of_mem _ hg)
      have hskip' := fun n r hm => hskiprec n r (List.mem_cons_of_mem _ hm)
      by_cases hskip : name < dayDigits since
      · rw [read_chunks, if_pos hskip, ih hday' hdec' hbound' hskip']
        rw [List.flatMap_cons,
          hskiprec name recs (List.mem_cons_self _ _) hskip]
        rfl
      · rw [read_chunks, if_neg hskip,
          decryptAll_ok key _ (fun ec hec =>
            hdec _ (List.mem_cons_self _ _) ec (List.mem_filter.mp hec).1),
          ih hday' hdec' hbound' hskip']
        rw [List.flatMap_cons, List.map_append]
  · induction dir with
    | nil => rfl
    | cons f rest ih =>
      obtain ⟨name, recs⟩ := f
      have hday' := fun g hg => hday g (List.mem_cons_of_mem _ hg)
      have hdec' := fun g hg => hdec g (List.mem_cons_of_mem _ hg)
      have hbound' := fun g hg => hbound g (List.mem_cons_of_mem _ hg)
      have hskip' := fun n r hm => hskiprec n r (List.mem_cons_of_mem _ hm)
      by_cases hskip : name < dayDigits since
      · rw [read_chunks, if_pos hskip, List.filter_cons,
          if_neg (by simp [hskip]), ih hday' hdec' hbound' hskip']
      · rw [read_chunks, if_neg hskip, List.filter_cons, if_pos (by simp [hskip]),
          read_chunks, if_neg hskip, ih hday' hdec' hbound' hskip']
  · intro hall
    induction dir with
    | nil => rfl
    | cons f rest ih =>
      obtain ⟨name, recs⟩ := f
      have hday' := fun g hg => hday g (List.mem_cons_of_mem _ hg)
      have hdec' := fun g hg => hdec g (List.mem_cons_of_mem _ hg)
      have hbound' := fun g hg => hbound g (List.mem_cons_of_mem _ hg)
      have hskip' := fun n r hm => hskiprec n r (List.mem_cons_of_mem _ hm)
      have hall' := fun g hg => hall g (List.mem_cons_of_mem _ hg)
      have hemp : recs.filter (fun ec => since < ec.start) = [] := by
        rw [List.filter_eq_nil_iff]
        intro ec hec
        have := hall _ (List.mem_cons_self _ _) ec hec
        simp only [decide_eq_true_eq]
        omega
      by_cases hskip : name < dayDigits since
      · rw [read_chunks, if_pos hskip]
        exact ih hday' hdec' hbound' hskip' hall'
      · rw [read_chunks, if_neg hskip, hemp,
          show decryptAll key [] = .ok [] from rfl,
          ih hday' hdec' hbound' hskip' hall']
        rfl

/-- Witness for C3: watermark inside day 3; the day-1 file is skipped, the
day-4 record is returned. -/
theorem c3_read_chunks_watermark_witness :
    ((∀ f ∈ exDir, ∀ ec ∈ f.2, dayDigits ec.start = f.1)
      ∧ (∀ f ∈ exDir, ∀ ec ∈ f.2, ∃ c, decrypt ec exKey = .ok c)
      ∧ (∀ f ∈ exDir, ∀ ec ∈ f.2, ec.start / 86400 < 10 ^ 8)
      ∧ (259210 : Nat) / 86400 < 10 ^ 8) ∧
    (read_chunks exKey 259210 exDir =
      .ok ((exDir.flatMap (fun f => f.2.filter (fun ec => 259210 < ec.start))).map
        (fun ec => decryptD ec exKey))
    ∧ read_chunks exKey 259210 exDir =
        read_chunks exKey 259210 (exDir.filter (fun f => ¬ f.1 < dayDigits 259210))
    ∧ ((∀ f ∈ exDir, ∀ ec ∈ f.2, ec.start < 259210) →
        read_chunks exKey 259210 exDir = .ok [])) := by
  have hdec : ∀ f ∈ exDir, ∀ ec ∈ f.2, ∃ c, decrypt ec exKey = .ok c := by
    intro f hf ec hec
    simp only [exDir, List.mem_cons, List.not_mem_nil, or_false] at hf
    rcases hf with rfl | rfl
    · simp only [List.mem_singleton] at hec
      subst hec
      exact ⟨_, decrypt_encrypt 11 { start := 86400, entries := [] } exKey⟩
    · simp only [List.mem_singleton] at hec
      subst hec
      exact ⟨_, decrypt_encrypt 12
        { start := 345600, entries := [Entry.mk 1 345600 [104] [108] [] [115]] } exKey⟩
  exact ⟨⟨by decide, hdec, by decide, by decide⟩,
    c3_read_chunks_watermark exKey 259210 exDir (by decide) hdec (by decide) (by decide)⟩

/-! ### C4 groundwork: `chunk_by` structure -/

theorem chunkBy_flatten {α κ : Type} [DecidableEq κ] (key : α → κ) (l : List α) :
    (chunkBy key l).flatMap Prod.snd = l := by
  induction l with
  | nil => rfl
  | cons a l ih =>
    rw [chunkBy]
    cases hc : chunkBy key l with
    | nil =>
      rw [hc] at ih
      simp at ih
      simp [chunkByCons, ih]
    | cons g rest =>
      obtain ⟨k, grp⟩ := g
      rw [hc] at ih
      rw [chunkByCons]
      by_cases hk : key a = k
      · rw [if_pos hk]
        simp only [List.flatMap_cons] at ih ⊢
        simp [← ih]
      · rw [if_neg hk]
        simp only [List.flatMap_cons] at ih ⊢
        simp [← ih]

theorem chunkBy_groups {α κ : Type} [DecidableEq κ] (key : α → κ) (l : List α) :
    ∀ g ∈ chunkBy key l, g.2 ≠ [] ∧ ∀ a ∈ g.2, key a = g.1 := by
  induction l with
  | nil => intro g hg; cases hg
  | cons a l ih =>
    intro g hg
    rw [chunkBy] at hg
    cases hc : chunkBy key l with
    | nil =>
      rw [hc, chunkByCons] at hg
      simp only [List.mem_singleton] at hg
      subst hg
      exact ⟨by simp, by simp⟩
    | cons g0 rest =>
      obtain ⟨k, grp⟩ := g0
      rw [hc, chunkByCons] at hg
      by_cases hk : key a = k
      · rw [if_pos hk] at hg
        rcases List.mem_cons.mp hg with rfl | hg2
        · refine ⟨by simp, ?_⟩
          intro b hb
          rcases List.mem_cons.mp hb with rfl | hb2
          · exact hk
          · exact (ih (k, grp) (hc ▸ List.mem_cons_self _ _)).2 b hb2
        · exact ih g (hc ▸ List.mem_cons_of_mem _ hg2)
      · rw [if_neg hk] at hg
        rcases List.mem_cons.mp hg with rfl | hg2
        · exact ⟨by simp, by simp⟩
        · exact ih g (hc ▸ hg2)

theorem chunkBy_chain {α κ : Type} [DecidableEq κ] (key : α → κ) (l : List α) :
    List.Chain' (fun g1 g2 => g1.1 ≠ g2.1) (chunkBy key l) := by
  induction l with
  | nil => exact List.chain'_nil
  | cons a l ih =>
    rw [chunkBy]
    cases hc : chunkBy key l with
    | nil => simp [chunkByCons]
    | cons g0 rest =>
      obtain ⟨k, grp⟩ := g0
      rw [hc] at ih
      rw [chunkByCons]
      by_cases hk : key a = k
      · rw [if_pos hk]
        cases rest with
        | nil => simp
        | cons g1 rest1 =>
          rw [List.chain'_cons] at ih ⊢
          exact ⟨ih.1, ih.2⟩
      · rw [if_neg hk]
        exact List.Chain'.cons hk ih

/-- Chunks that are all at or below the watermark produce an empty append
plan. -/
theorem write_chunks_stale (chunks : List Chunk) (lw : Nat)
    (h : ∀ c ∈ chunks, c.start ≤ lw) : write_chunks chunks lw = [] := by
  rw [write_chunks]
  have : chunks.filter (fun c => decide (lw < c.start) && !c.entries.isEmpty) = [] := by
    rw [List.filter_eq_nil_iff]
    intro c hc
    have := h c hc
    simp only [Bool.and_eq_true, decide_eq_true_eq, not_and]
    intro hlt
    omega
  rw [this]
  rfl

theorem mem_lookupChunks {hm : List (Str × List Chunk)} {host : Str} {c : Chunk}
    (h : c ∈ lookupChunks hm host) : ∃ p ∈ hm, c ∈ p.2 := by
  induction hm with
  | nil => cases h
  | cons p rest ih =>
    rw [lookupChunks] at h
    by_cases hp : p.1 = host
    · rw [if_pos hp] at h
      exact ⟨p, List.mem_cons_self _ _, h⟩
    · rw [if_neg hp] at h
      obtain ⟨q, hq, hcq⟩ := ih h
      exact ⟨q, List.mem_cons_of_mem _ hq, hcq⟩

/-! ### C4 -/

/-- C4: `write_chunks` writes exactly the chunks with `start > last_write`
and non-empty entries: the append plan's groups flatten back to precisely
the filtered chunk list, every group is a non-empty run of chunks sharing
the day of their `start` (the day file appended to), adjacent groups are
runs of different days, and a chunk list entirely at or below the watermark
(a `History` whose entries were all saved already, as after `save` with a
monotone clock) appends zero records. -/
theorem c4_write_chunks_plan (chunks : List Chunk) (lw : Nat) :
    ((write_chunks chunks lw).flatMap Prod.snd =
      chunks.filter (fun c => decide (lw < c.start) && !c.entries.isEmpty))
    ∧ (∀ g ∈ write_chunks chunks lw, g.2 ≠ [] ∧ ∀ c ∈ g.2, dayDigits c.start = g.1)
    ∧ List.Chain' (fun g1 g2 => g1.1 ≠ g2.1) (write_chunks chunks lw)
    ∧ ((∀ c ∈ chunks, c.start ≤ lw) → write_chunks chunks lw = [])
    ∧ (∀ (h : History) (t : Nat), ClockLe h t →
        write_chunks (lookupChunks (h.save t).history (h.save t).host)
          (h.save t).last_write = []) := by
  refine ⟨chunkBy_flatten _ _, chunkBy_groups _ _, chunkBy_chain _ _,
    write_chunks_stale chunks lw, ?_⟩
  intro h t hclock
  apply write_chunks_stale
  intro c hc
  obtain ⟨p, hp, hcp⟩ := mem_lookupChunks hc
  exact hclock.1 p hp c hcp

/-- Witness for C4: two same-day chunks above the watermark, one empty chunk
and one below-watermark chunk. -/
theorem c4_write_chunks_plan_witness :
    (((write_chunks [Chunk.mk 86400 [Entry.mk 1 86400 [104] [108] [] [115]],
          Chunk.mk 86405 [Entry.mk 2 86405 [104] [109] [] [115]],
          Chunk.mk 345600 [], Chunk.mk 50 [Entry.mk 3 50 [104] [110] [] [115]]] 100).flatMap
        Prod.snd =
      [Chunk.mk 86400 [Entry.mk 1 86400 [104] [108] [] [115]],
          Chunk.mk 86405 [Entry.mk 2 86405 [104] [109] [] [115]],
          Chunk.mk 345600 [], Chunk.mk 50 [Entry.mk 3 50 [104] [110] [] [115]]].filter
        (fun c => decide (100 < c.start) && !c.entries.isEmpty))
    ∧ (∀ g ∈ write_chunks [Chunk.mk 86400 [Entry.mk 1 86400 [104] [108] [] [115]],
          Chunk.mk 86405 [Entry.mk 2 86405 [104] [109] [] [115]],
          Chunk.mk 345600 [], Chunk.mk 50 [Entry.mk 3 50 [104] [110] [] [115]]] 100,
        g.2 ≠ [] ∧ ∀ c ∈ g.2, dayDigits c.start = g.1)
    ∧ List.Chain' (fun g1 g2 => g1.1 ≠ g2.1)
        (write_chunks [Chunk.mk 86400 [Entry.mk 1 86400 [104] [108] [] [115]],
          Chunk.mk 86405 [Entry.mk 2 86405 [104] [109] [] [115]],
          Chunk.mk 345600 [], Chunk.mk 50 [Entry.mk 3 50 [104] [110] [] [115]]] 100)
    ∧ ((∀ c ∈ [Chunk.mk 86400 [Entry.mk 1 86400 [104] [108] [] [115]],
          Chunk.mk 86405 [Entry.mk 2 86405 [104] [109] [] [115]],
          Chunk.mk 345600 [], Chunk.mk 50 [Entry.mk 3 50 [104] [110] [] [115]]],
          c.start ≤ 100) →
        write_chunks [Chunk.mk 86400 [Entry.mk 1 86400 [104] [108] [] [115]],
          Chunk.mk 86405 [Entry.mk 2 86405 [104] [109] [] [115]],
          Chunk.mk 345600 [], Chunk.mk 50 [Entry.mk 3 50 [104] [110] [] [115]]] 100 = [])
    ∧ (∀ (h : History) (t : Nat), ClockLe h t →
        write_chunks (lookupChunks (h.save t).history (h.save t).host)
          (h.save t).last_write = [])) :=
  c4_write_chunks_plan
    [Chunk.mk 86400 [Entry.mk 1 86400 [104] [108] [] [115]],
     Chunk.mk 86405 [Entry.mk 2 86405 [104] [109] [] [115]],
     Chunk.mk 345600 [], Chunk.mk 50 [Entry.mk 3 50 [104] [110] [] [115]]] 100

/-! ### C5 groundwork -/

theorem lookup_setChunks (hm : List (Str × List Chunk)) (host : Str) (cs : List Chunk) :
    lookupChunks (setChunks hm host cs) host = cs := by
  induction hm with
  | nil => simp [setChunks, lookupChunks]
  | cons p rest ih =>
    rw [setChunks]
    by_cases hp : p.1 = host
    · rw [if_pos hp, lookupChunks, if_pos rfl]
    · rw [if_neg hp, lookupChunks, if_neg hp, ih]

theorem getActiveChunks_ne_nil (cs : List Chunk) (lw now : Nat) :
    getActiveChunks cs lw now ≠ [] := by
  rw [getActiveChunks]
  cases hl : cs.getLast? with
  | none => simp
  | some last =>
    show (if lw < last.start then cs else cs ++ [{ start := now, entries := [] }]) ≠ []
    by_cases hlt : lw < last.start
    · rw [if_pos hlt]
      intro h
      rw [h] at hl
      simp at hl
    · rw [if_neg hlt]
      simp

theorem pushToLast_ne_nil (e : Entry) (cs : List Chunk) (h : cs ≠ []) :
    pushToLast e cs ≠ [] := by
  rw [pushToLast]
  cases hl : cs.getLast? with
  | none =>
    rw [List.getLast?_eq_none_iff] at hl
    exact absurd hl h
  | some last => simp

theorem pushToLast_lastEntry (e : Entry) (cs : List Chunk) (h : cs ≠ []) :
    ((pushToLast e cs).getLastD default).entries.getLast? = some e := by
  rw [pushToLast]
  cases hl : cs.getLast? with
  | none =>
    rw [List.getLast?_eq_none_iff] at hl
    exact absurd hl h
  | some last =>
    rw [List.getLastD_eq_getLast?, List.getLast?_concat]
    simp [List.getLast?_concat]

/-! ### C5 -/

/-- C5: `History::update` fails exactly when no entry with the requested id
is in the merged view (tombstoned ids included, since they are omitted from
`merged`); the failing path returns before touching any state, so history
map, merged view and watermark are unchanged; on success an entry with the
same id, the current timestamp, the given (possibly empty) `cmd` and an
empty `path` is appended to the active chunk and `merged` is rebuilt from
the chunk lists. -/
theorem c5_update_unknown_id (h : History) (now : Nat) (id : Nat) (cmd session : Str) :
    ((h.update now id cmd session).2.isSome ↔ ∀ e ∈ h.merged, e.id ≠ id)
    ∧ ((h.update now id cmd session).2.isSome → (h.update now id cmd session).1 = h)
    ∧ ((∃ e ∈ h.merged, e.id = id) →
        (h.update now id cmd session).2 = none
        ∧ lookupChunks (h.update now id cmd session).1.history h.host ≠ []
        ∧ ((lookupChunks (h.update now id cmd session).1.history h.host).getLastD
              default).entries.getLast? =
            some { id := id, ts := now, host := h.host, cmd := cmd, path := [],
                   session := session }
        ∧ (h.update now id cmd session).1.merged =
            rebuild_merged (allEntries (h.update now id cmd session).1.history)
        ∧ (h.update now id cmd session).1.last_write = h.last_write) := by
  by_cases hc : ¬ h.merged.any (fun e => e.id == id)
  · rw [History.update, if_pos hc]
    refine ⟨?_, fun _ => rfl, ?_⟩
    · simp only [Option.isSome_some, true_iff]
      intro e he
      simp only [List.any_eq_true, not_exists, not_and] at hc
      intro heq
      exact absurd (beq_iff_eq.mpr heq) (by simpa using hc e he)
    · rintro ⟨e, he, heq⟩
      exfalso
      exact hc (List.any_eq_true.mpr ⟨e, he, beq_iff_eq.mpr heq⟩)
  · rw [History.update, if_neg hc]
    rw [not_not] at hc
    obtain ⟨e0, he0, hbeq⟩ := List.any_eq_true.mp hc
    constructor
    · simp only [Option.isSome_none, Bool.false_eq_true, false_iff, not_forall]
      exact ⟨e0, he0, by simpa using hbeq⟩
    constructor
    · intro hs
      simp at hs
    · intro _
      refine ⟨rfl, ?_, ?_, ?_, rfl⟩
      · rw [lookup_setChunks]
        exact pushToLast_ne_nil _ _ (getActiveChunks_ne_nil _ _ _)
      · rw [lookup_setChunks]
        exact pushToLast_lastEntry _ _ (getActiveChunks_ne_nil _ _ _)
      · rfl

/-- Witness for C5: updating the existing id 1 with cmd "c" succeeds and
appends the update entry to the active chunk. -/
theorem c5_update_unknown_id_witness :
    (((exHist.update 6 1 [99] [115]).2.isSome ↔ ∀ e ∈ exHist.merged, e.id ≠ 1)
    ∧ ((exHist.update 6 1 [99] [115]).2.isSome → (exHist.update 6 1 [99] [115]).1 = exHist)
    ∧ ((∃ e ∈ exHist.merged, e.id = 1) →
        (exHist.update 6 1 [99] [115]).2 = none
        ∧ lookupChunks (exHist.update 6 1 [99] [115]).1.history exHist.host ≠ []
        ∧ ((lookupChunks (exHist.update 6 1 [99] [115]).1.history
              exHist.host).getLastD default).entries.getLast? =
            some { id := 1, ts := 6, host := exHist.host, cmd := [99], path := [],
                   session := [115] }
        ∧ (exHist.update 6 1 [99] [115]).1.merged =
            rebuild_merged (allEntries (exHist.update 6 1 [99] [115]).1.history)
        ∧ (exHist.update 6 1 [99] [115]).1.last_write = exHist.last_write)) :=
  c5_update_unknown_id exHist 6 1 [99] [115]

/-! ### C6 -/

/-- C6 (code bug): in the `Message::Update` arm of `Server::handle_request`,
a failed update sends an `Error` response and then still sends an `Ack` —
the `conn.ack()` call is not guarded by an `else` (unlike the `Sync` arm),
so the connection receives two responses, the `Error` followed by an `Ack`,
where the spec requires a single `Error`.  On success a single `Ack` is
sent. -/
theorem c6_update_error_then_ack :
    handle_update (some (.unknownId 1)) = [Message.error (.unknownId 1), Message.ack]
    ∧ handle_update none = [Message.ack] :=
  ⟨rfl, rfl⟩

/-! ### C8 -/

/-- C8 counterexample: `Store::write_state` opens the snapshot with
`File::create`, which truncates it immediately; if producing the record then
fails, the previous snapshot content ([1, 2, 3] here) is already destroyed:
the on-disk state after the failed call is empty, not the previous
content — refuting "on error the on-disk snapshot state is unchanged". -/
theorem c8_write_state_counterexample :
    ((write_state (fun _ => .error .crypto) [1, 2, 3] (some (Chunk.mk 0 []))).2 =
      some Err.crypto)
    ∧ (write_state (fun _ => .error .crypto) [1, 2, 3] (some (Chunk.mk 0 []))).1 ≠
        [1, 2, 3] :=
  ⟨rfl, by decide⟩

/-- C8 (amended): after a successful `write_state` call the snapshot file
contains exactly the one provided record (or is empty when no chunk is
provided); but the file is truncated when opened, so a call that fails
partway (for example encryption fails after the file is opened) leaves the
file empty — the previous snapshot contents are destroyed, not preserved. -/
theorem c8_write_state_truncates (enc : Chunk → Except Err (List Nat)) (prev : List Nat)
    (c : Chunk) (bytes : List Nat) (e : Err) :
    write_state enc prev none = ([], none)
    ∧ (enc c = .ok bytes → write_state enc prev (some c) = (bytes, none))
    ∧ (enc c = .error e → write_state enc prev (some c) = ([], some e)) := by
  refine ⟨rfl, ?_, ?_⟩ <;> intro h <;> simp [write_state, h]

/-- Witness for C8 (amended) at a concrete always-succeeding encoder. -/
theorem c8_write_state_truncates_witness :
    write_state (fun _ => .ok [9]) [1, 2, 3] none = ([], none)
    ∧ ((fun _ => Except.ok (ε := Err) [9]) (Chunk.mk 0 []) = .ok [9] →
        write_state (fun _ => .ok [9]) [1, 2, 3] (some (Chunk.mk 0 [])) = ([9], none))
    ∧ ((fun _ => Except.ok (ε := Err) [9]) (Chunk.mk 0 []) = .error .crypto →
        write_state (fun _ => .ok [9]) [1, 2, 3] (some (Chunk.mk 0 [])) = ([], some .crypto)) :=
  c8_write_state_truncates (fun _ => .ok [9]) [1, 2, 3] (Chunk.mk 0 []) [9] .crypto

/-! ### C10 -/

/-- C10: `Connection::receive` reports a clean disconnect (`Ok(None)`) for
any unexpected end-of-file: both a stream shorter than the 8-byte length
header and a stream whose complete, valid header promises more body bytes
than remain (a truncated request) yield `Ok(None)` rather than a framing or
IO error. -/
theorem c10_receive_truncated (dec : List Nat → Option Message) (s : List Nat) :
    (s.length < 8 → receive dec s = .ok none)
    ∧ (8 ≤ s.length → s.length - 8 < fromLe (s.take 8) → receive dec s = .ok none) := by
  constructor
  · intro h
    rw [receive, read_message, read_exact, if_pos h]
    rfl
  · intro h8 hlen
    have hcond : (s.drop 8).length < fromLe (s.take 8) := by
      rw [List.length_drop]
      exact hlen
    have hmsg : read_message s = .error .unexpectedEof := by
      rw [read_message, read_exact, if_neg (by omega)]
      show (match read_exact (fromLe (s.take 8)) (s.drop 8) with
        | Except.error e => Except.error e
        | Except.ok (data, r2) => Except.ok (data, r2)) =
          Except.error IoErrKind.unexpectedEof
      rw [read_exact, if_pos hcond]
    rw [receive, hmsg]
    rfl

/-- Witness for C10: a complete little-endian header declaring a 16-byte
body, followed by only two body bytes. -/
theorem c10_receive_truncated_witness :
    (([16, 0, 0, 0, 0, 0, 0, 0, 1, 2] : List Nat).length < 8 →
      receive (fun _ => none) [16, 0, 0, 0, 0, 0, 0, 0, 1, 2] = .ok none)
    ∧ (8 ≤ ([16, 0, 0, 0, 0, 0, 0, 0, 1, 2] : List Nat).length →
        ([16, 0, 0, 0, 0, 0, 0, 0, 1, 2] : List Nat).length - 8 <
          fromLe (([16, 0, 0, 0, 0, 0, 0, 0, 1, 2] : List Nat).take 8) →
        receive (fun _ => none) [16, 0, 0, 0, 0, 0, 0, 0, 1, 2] = .ok none) :=
  c10_receive_truncated (fun _ => none) [16, 0, 0, 0, 0, 0, 0, 0, 1, 2]

/-! ### C9 groundwork: order preservation of the chunk-list operations -/

theorem mem_setChunks {hm : List (Str × List Chunk)} {host : Str} {cs : List Chunk}
    {p : Str × List Chunk} (h : p ∈ setChunks hm host cs) : p = (host, cs) ∨ p ∈ hm := by
  induction hm with
  | nil => simpa [setChunks] using h
  | cons q rest ih =>
    rw [setChunks] at h
    by_cases hq : q.1 = host
    · rw [if_pos hq] at h
      rcases List.mem_cons.mp h with rfl | h2
      · exact Or.inl rfl
      · exact Or.inr (List.mem_cons_of_mem _ h2)
    · rw [if_neg hq] at h
      rcases List.mem_cons.mp h with rfl | h2
      · exact Or.inr (List.mem_cons_self _ _)
      · rcases ih h2 with h3 | h3
        · exact Or.inl h3
        · exact Or.inr (List.mem_cons_of_mem _ h3)

theorem SC_lookup {hm : List (Str × List Chunk)} (host : Str) (h : chunksSorted hm) :
    List.Pairwise (fun a b : Chunk => a.start ≤ b.start) (lookupChunks hm host) := by
  induction hm with
  | nil => simp [lookupChunks]
  | cons q rest ih =>
    rw [lookupChunks]
    by_cases hq : q.1 = host
    · rw [if_pos hq]
      exact h q (List.mem_cons_self _ _)
    · rw [if_neg hq]
      exact ih (fun p hp => h p (List.mem_cons_of_mem _ hp))

theorem map_start_pushToLast (e : Entry) (cs : List Chunk) (h : cs ≠ []) :
    (pushToLast e cs).map Chunk.start = cs.map Chunk.start := by
  rw [pushToLast, List.getLast?_eq_getLast cs h]
  show (cs.dropLast ++
      [{ cs.getLast h with entries := (cs.getLast h).entries ++ [e] }]).map Chunk.start =
    cs.map Chunk.start
  conv_rhs => rw [← List.dropLast_concat_getLast h]
  rw [List.map_append, List.map_append]
  rfl

theorem SC_pushToLast (e : Entry) (cs : List Chunk)
    (h : List.Pairwise (fun a b : Chunk => a.start ≤ b.start) cs) :
    List.Pairwise (fun a b : Chunk => a.start ≤ b.start) (pushToLast e cs) := by
  by_cases hcs : cs = []
  · subst hcs
    simp [pushToLast]
  · have hm := map_start_pushToLast e cs hcs
    rw [← List.pairwise_map (f := Chunk.start), hm, List.pairwise_map]
    exact h

theorem start_le_pushToLast (e : Entry) (cs : List Chunk) (t : Nat)
    (hb : ∀ c ∈ cs, c.start ≤ t) : ∀ c ∈ pushToLast e cs, c.start ≤ t := by
  by_cases hcs : cs = []
  · subst hcs
    simp [pushToLast]
  · intro c hc
    have hmem : c.start ∈ (pushToLast e cs).map Chunk.start := List.mem_map_of_mem _ hc
    rw [map_start_pushToLast e cs hcs] at hmem
    obtain ⟨c2, hc2, heq⟩ := List.mem_map.mp hmem
    rw [← heq]
    exact hb c2 hc2

theorem SC_getActiveChunks (cs : List Chunk) (lw now : Nat)
    (h : List.Pairwise (fun a b : Chunk => a.start ≤ b.start) cs)
    (hb : ∀ c ∈ cs, c.start ≤ now) :
    List.Pairwise (fun a b : Chunk => a.start ≤ b.start) (getActiveChunks cs lw now) := by
  rw [getActiveChunks]
  cases hl : cs.getLast? with
  | none =>
    rw [List.getLast?_eq_none_iff] at hl
    subst hl
    simp
  | some last =>
    show List.Pairwise _ (if lw < last.start then cs else cs ++ [{ start := now, entries := [] }])
    by_cases hlt : lw < last.start
    · rw [if_pos hlt]
      exact h
    · rw [if_neg hlt, List.pairwise_append]
      refine ⟨h, List.pairwise_singleton _ _, ?_⟩
      intro a ha b hb2
      rw [List.mem_singleton] at hb2
      subst hb2
      exact hb a ha

theorem start_le_getActiveChunks (cs : List Chunk) (lw now : Nat)
    (hb : ∀ c ∈ cs, c.start ≤ now) : ∀ c ∈ getActiveChunks cs lw now, c.start ≤ now := by
  rw [getActiveChunks]
  cases hl : cs.getLast? with
  | none =>
    rw [List.getLast?_eq_none_iff] at hl
    subst hl
    simp
  | some last =>
    show ∀ c ∈ (if lw < last.start then cs else cs ++ [{ start := now, entries := [] }]), _
    by_cases hlt : lw < last.start
    · rw [if_pos hlt]
      exact hb
    · rw [if_neg hlt]
      intro c hc
      rcases List.mem_append.mp hc with hc2 | hc2
      · exact hb c hc2
      · rw [List.mem_singleton] at hc2
        subst hc2
        exact le_rfl

theorem SC_foldl_pushToLast (es : List Entry) : ∀ (active : List Chunk),
    List.Pairwise (fun a b : Chunk => a.start ≤ b.start) active →
    List.Pairwise (fun a b : Chunk => a.start ≤ b.start)
      (es.foldl (fun cs e => pushToLast e cs) active) := by
  induction es with
  | nil => intro active h; exact h
  | cons e t ih =>
    intro active h
    rw [List.foldl_cons]
    exact ih _ (SC_pushToLast e active h)

theorem chunkLe_trans (a b c : Chunk) (hab : chunkLe a b = true) (hbc : chunkLe b c = true) :
    chunkLe a c = true := by
  simp only [chunkLe, decide_eq_true_eq] at *
  omega

theorem chunkLe_total (a b : Chunk) : (chunkLe a b || chunkLe b a) = true := by
  simp only [chunkLe, Bool.or_eq_true, decide_eq_true_eq]
  omega

theorem entryLe_ts (a b : Entry) (h : entryLe a b = true) : a.ts ≤ b.ts := by
  simp only [entryLe, decide_eq_true_eq, Entry.key] at h
  rcases (Prod.Lex.le_iff _ _).mp h with h1 | ⟨h1, -⟩
  · exact Nat.le_of_lt h1
  · exact Nat.le_of_eq h1

theorem rebuild_merged_ts (l : List Entry) :
    List.Pairwise (fun a b : Entry => a.ts ≤ b.ts) (rebuild_merged l) :=
  (List.sorted_mergeSort entryLe_trans entryLe_total _).imp (fun h => entryLe_ts _ _ h)

theorem SC_rebuild_aux : ∀ (l : List Entry) (hm : List (Str × List Chunk)),
    List.Pairwise (fun a b : Entry => a.ts ≤ b.ts) l →
    chunksSorted hm →
    (∀ p ∈ hm, ∀ c ∈ p.2, ∀ e ∈ l, c.start ≤ e.ts / 3600 * 3600) →
    chunksSorted (l.foldl rebuildStep hm) := by
  intro l
  induction l with
  | nil =>
    intro hm _ hs _
    exact hs
  | cons e t ih =>
    intro hm hts hs hb
    rw [List.foldl_cons]
    have hts2 := List.pairwise_cons.mp hts
    refine ih _ hts2.2 ?_ ?_
    · -- the stepped map is sorted
      intro p hp
      rw [rebuildStep] at hp
      by_cases hcase : (lookupChunks hm e.host).getLast?.elim false
          (fun last => last.start = e.ts / 3600 * 3600)
      · rw [if_pos hcase] at hp
        rcases mem_setChunks hp with rfl | hp2
        · exact SC_pushToLast _ _ (SC_lookup _ hs)
        · exact hs p hp2
      · rw [if_neg hcase] at hp
        rcases mem_setChunks hp with rfl | hp2
        · show List.Pairwise _ (lookupChunks hm e.host ++ [_])
          rw [List.pairwise_append]
          refine ⟨SC_lookup _ hs, List.pairwise_singleton _ _, ?_⟩
          intro a ha b hb2
          rw [List.mem_singleton] at hb2
          subst hb2
          obtain ⟨q, hq, haq⟩ := mem_lookupChunks ha
          exact hb q hq a haq e (List.mem_cons_self _ _)
        · exact hs p hp2
    · -- the bound is maintained for the remaining entries
      intro p hp c hc e2 he2
      have hets : e.ts ≤ e2.ts := hts2.1 e2 he2
      have hhour : e.ts / 3600 * 3600 ≤ e2.ts / 3600 * 3600 :=
        Nat.mul_le_mul_right 3600 (Nat.div_le_div_right hets)
      rw [rebuildStep] at hp
      by_cases hcase : (lookupChunks hm e.host).getLast?.elim false
          (fun last => last.start = e.ts / 3600 * 3600)
      · rw [if_pos hcase] at hp
        rcases mem_setChunks hp with rfl | hp2
        · have hc2 : c ∈ pushToLast e (lookupChunks hm e.host) := hc
          by_cases hnil : lookupChunks hm e.host = []
          · rw [hnil] at hc2
            simp [pushToLast] at hc2
          · have hmem : c.start ∈ (pushToLast e (lookupChunks hm e.host)).map Chunk.start :=
              List.mem_map_of_mem _ hc2
            rw [map_start_pushToLast e _ hnil] at hmem
            obtain ⟨c2, hcs2, heq⟩ := List.mem_map.mp hmem
            obtain ⟨q, hq, hcq⟩ := mem_lookupChunks hcs2
            rw [← heq]
            exact hb q hq c2 hcq e2 (List.mem_cons_of_mem _ he2)
        · exact hb p hp2 c hc e2 (List.mem_cons_of_mem _ he2)
      · rw [if_neg hcase] at hp
        rcases mem_setChunks hp with rfl | hp2
        · have hc2 : c ∈ lookupChunks hm e.host ++
              [{ start := e.ts / 3600 * 3600, entries := [e] }] := hc
          rcases List.mem_append.mp hc2 with hc3 | hc3
          · obtain ⟨q, hq, hcq⟩ := mem_lookupChunks hc3
            exact hb q hq c hcq e2 (List.mem_cons_of_mem _ he2)
          · rw [List.mem_singleton] at hc3
            subst hc3
            exact hhour
        · exact hb p hp2 c hc e2 (List.mem_cons_of_mem _ he2)

theorem SC_rebuild_chunks (merged : List Entry)
    (hts : List.Pairwise (fun a b : Entry => a.ts ≤ b.ts) merged) :
    chunksSorted (rebuild_chunks merged) := by
  rw [rebuild_chunks]
  exact SC_rebuild_aux merged [] hts (fun p hp => absurd hp (List.not_mem_nil p))
    (fun p hp => absurd hp (List.not_mem_nil p))

theorem chunksSorted_setChunks {hm : List (Str × List Chunk)} {host : Str} {cs : List Chunk}
    (hs : chunksSorted hm)
    (hcs : List.Pairwise (fun a b : Chunk => a.start ≤ b.start) cs) :
    chunksSorted (setChunks hm host cs) := by
  intro p hp
  rcases mem_setChunks hp with rfl | hp2
  · exact hcs
  · exact hs p hp2

theorem pairwise_ts_ite (p : Prop) [Decidable p] (m1 m2 : List Entry)
    (h1 : List.Pairwise (fun a b : Entry => a.ts ≤ b.ts) m1)
    (h2 : List.Pairwise (fun a b : Entry => a.ts ≤ b.ts) m2) :
    List.Pairwise (fun a b : Entry => a.ts ≤ b.ts) (if p then m1 else m2) := by
  by_cases hp : p
  · rw [if_pos hp]
    exact h1
  · rw [if_neg hp]
    exact h2

/-- Every single operation preserves the history invariant. -/
theorem stepOp_inv (h : History) (op : Op) (hinv : HistInv h) (hok : OpOk h op) :
    HistInv (stepOp h op) := by
  obtain ⟨hs, hts⟩ := hinv
  cases op with
  | add now id cmd path session =>
    have hclock : ClockLe h now := hok
    have hb : ∀ c ∈ lookupChunks h.history h.host, c.start ≤ now := fun c hc => by
      obtain ⟨q, hq, hcq⟩ := mem_lookupChunks hc
      exact hclock.1 q hq c hcq
    refine ⟨?_, ?_⟩
    · exact chunksSorted_setChunks hs (SC_pushToLast _ _
        (SC_getActiveChunks _ _ _ (SC_lookup _ hs) hb))
    · show List.Pairwise _ (h.merged ++ [_])
      rw [List.pairwise_append]
      refine ⟨hts, List.pairwise_singleton _ _, ?_⟩
      intro a ha b hb2
      rw [List.mem_singleton] at hb2
      subst hb2
      exact hclock.2 a ha
  | update now id cmd session =>
    have hclock : ClockLe h now := hok
    have hb : ∀ c ∈ lookupChunks h.history h.host, c.start ≤ now := fun c hc => by
      obtain ⟨q, hq, hcq⟩ := mem_lookupChunks hc
      exact hclock.1 q hq c hcq
    show HistInv (h.update now id cmd session).1
    rw [History.update]
    by_cases hc : ¬ h.merged.any (fun e => e.id == id)
    · rw [if_pos hc]
      exact ⟨hs, hts⟩
    · rw [if_neg hc]
      exact ⟨chunksSorted_setChunks hs (SC_pushToLast _ _
        (SC_getActiveChunks _ _ _ (SC_lookup _ hs) hb)), rebuild_merged_ts _⟩
  | save now => exact ⟨hs, hts⟩
  | loadEntries now entries =>
    have hclock : ClockLe h now := hok
    have hb : ∀ c ∈ lookupChunks h.history h.host, c.start ≤ now := fun c hc => by
      obtain ⟨q, hq, hcq⟩ := mem_lookupChunks hc
      exact hclock.1 q hq c hcq
    exact ⟨chunksSorted_setChunks hs (SC_foldl_pushToLast _ _
        (SC_getActiveChunks _ _ _ (SC_lookup _ hs) hb)),
      pairwise_ts_ite _ _ _ hts (rebuild_merged_ts _)⟩
  | readHost host fileChunks =>
    refine ⟨chunksSorted_setChunks hs
      ((List.sorted_mergeSort chunkLe_trans chunkLe_total _).imp ?_),
      pairwise_ts_ite _ _ _ hts (rebuild_merged_ts _)⟩
    intro a b hab
    simpa [chunkLe] using hab
  | readActive fileChunks =>
    obtain ⟨hfs, hfb⟩ := hok
    show HistInv (h.read_active_chunk fileChunks)
    simp only [History.read_active_chunk]
    by_cases hae : (match (lookupChunks h.history h.host).getLast? with
      | some last => decide (h.last_write < last.start)
      | none => false) = true
    · rw [if_pos hae]
      exact ⟨hs, hts⟩
    · rw [if_neg hae]
      cases fileChunks with
      | nil => exact ⟨chunksSorted_setChunks hs (SC_lookup _ hs), hts⟩
      | cons c rest =>
        refine ⟨chunksSorted_setChunks hs ?_, pairwise_ts_ite _ _ _ hts (rebuild_merged_ts _)⟩
        rw [List.pairwise_append]
        exact ⟨SC_lookup _ hs, hfs, hfb⟩
  | rebuildAll now => exact ⟨SC_rebuild_chunks _ hts, hts⟩

/-! ### C9 -/

/-- C9: for every well-formed sequence of history operations (add, update,
save, bulk import, reading another host's directory, loading the
active-chunk snapshot, full rebuild — `load` and `sync` are compositions of
these), starting from a state satisfying the invariant, every host's chunk
list keeps its `start` values monotone non-decreasing.  Well-formedness
captures normal operation: the wall clock never runs backwards (`ClockLe`)
and a loaded snapshot holds this host's newest chunks in order. -/
theorem c9_chunk_starts_monotone (h : History) (ops : List Op)
    (hinv : HistInv h) (hwf : WfOps h ops) :
    chunksSorted (runOps h ops).history := by
  suffices hsuff : HistInv (runOps h ops) by exact hsuff.1
  induction ops generalizing h with
  | nil => exact hinv
  | cons op rest ih =>
    obtain ⟨hok, hwf2⟩ := hwf
    exact ih _ (stepOp_inv h op hinv hok) hwf2

/-- Witness for C9: an initial one-entry history run through an add, an
update, a save, a foreign-host read, a snapshot load and a rebuild. -/
theorem c9_chunk_starts_monotone_witness :
    (HistInv exHist ∧ WfOps exHist exOps) ∧ chunksSorted (runOps exHist exOps).history :=
  ⟨⟨by decide, by decide⟩, c9_chunk_starts_monotone exHist exOps (by decide) (by decide)⟩
